import Mathlib

/-!
ResultThreadPool: worker pool, chunk planning and result aggregation.

A shallow embedding of the data-parallel helpers of `src/thread/resultThreadPool.h`
(`splitChunksWithFutures`, `parallelizeCollectionReturnOne`,
`parallelizeCollectionReturnMany`, `enqueueWithResult`), of the worker pool of
`src/thread/resultThreadPool.cpp`, and of the two client tasks of `test/thread/main.cpp`
that the concrete scenarios use.

Modelling conventions.

* A collection is a `List α`; an iterator is its distance from `collection.begin()`,
  so an iterator pair is a pair of positions and the elements it delimits are
  `slice collection chunkStart chunkEnd`.
* A task is a function of the elements of the range it is handed.  It either returns a
  value (`Except.ok`) or raises a failure (`Except.error`).
* `enqueueWithResult` stores the value or the captured failure of the bound task in a
  promise; `fut.get()` returns that value or re-raises that failure.  A future is
  therefore modelled by the range captured by the submitted closure and the outcome
  `get` that awaiting it yields.  Futures are listed in submission order.
* `size_t` is 64 bits wide and `int` 32 bits wide.  A collection has fewer than `2 ^ 64`
  elements, so `chunkSize + chunkMod <= totalSize` never wraps.
* `totalSize / threadCnt` with `threadCnt = 0` is a division by zero: the call has no
  defined result, which is `none` at the outer `Option`.
-/

namespace ResultThreadPool

/-! ## Definitions -/

/-- Elements delimited by the iterator pair at distances `chunkStart` and `chunkEnd`
from the beginning of the collection. -/
def slice {α : Type} (collection : List α) (chunkStart chunkEnd : Nat) : List α :=
  (collection.drop chunkStart).take (chunkEnd - chunkStart)

/-- One entry of the vector `futures`: the range captured by the closure handed to
`enqueueWithResult` and what `get()` on the returned future yields. -/
structure ChunkFuture (ε R : Type) where
  /-- Captured `chunkStart`, as a distance from `begin`. -/
  chunkStart : Nat
  /-- Captured `chunkEnd`, as a distance from `begin`. -/
  chunkEnd : Nat
  /-- Outcome of `task(chunkStart, chunkEnd)` delivered through the promise. -/
  get : Except ε R

/-- The loop `for (int i = 0; i < threadCnt && chunkStart != end; ++i)` of
`splitChunksWithFutures`.  The first numeric argument is `threadCnt - i`, the second the
current `chunkStart`; `step` is `chunkSize + chunkMod`. -/
def splitLoop {α ε R : Type} (collection : List α) (task : List α → Except ε R)
    (step : Nat) : Nat → Nat → List (ChunkFuture ε R)
  | 0, _ => []
  | remaining + 1, chunkStart =>
    if chunkStart = collection.length then []
    else
      let chunkEnd := chunkStart + min step (collection.length - chunkStart)
      ⟨chunkStart, chunkEnd, task (slice collection chunkStart chunkEnd)⟩
        :: splitLoop collection task step remaining chunkEnd

/-- Embedding of `ResultThreadPool::splitChunksWithFutures` on a pool of `threadCnt` workers. -/
def splitChunksWithFutures {α ε R : Type} (collection : List α)
    (task : List α → Except ε R) (minChunkSize threadCnt : Nat) :
    Option (List (ChunkFuture ε R)) :=
  let totalSize := collection.length
  if threadCnt = 0 then none
  else
    let chunkSize := totalSize / threadCnt
    let chunkMod := totalSize % threadCnt
    if chunkSize < minChunkSize ∨ threadCnt ≤ 1 then some []
    else some (splitLoop collection task (chunkSize + chunkMod) threadCnt 0)

/-- The aggregation loop of `parallelizeCollectionReturnOne`; the last argument is the
local `result`.  Comparing an optional with `std::nullopt` only tests `has_value()`. -/
def gatherOne {ε R : Type} : List (ChunkFuture ε (Option R)) → Option R →
    Except ε (Option R)
  | [], result => .ok result
  | fut :: rest, result =>
    match fut.get with
    | .error e => .error e
    | .ok resultOpt =>
      if resultOpt.isSome && !resultOpt.isNone && result.isNone then
        gatherOne rest resultOpt
      else gatherOne rest result

/-- Embedding of `ResultThreadPool::parallelizeCollectionReturnOne` (the overload returning
`std::optional<ResultType>`). -/
def parallelizeCollectionReturnOne {α ε R : Type} (collection : List α)
    (task : List α → Except ε (Option R)) (minChunkSize threadCnt : Nat) :
    Option (Except ε (Option R)) :=
  match splitChunksWithFutures collection task minChunkSize threadCnt with
  | none => none
  | some futures =>
    if futures.length = 0 then
      some (task (slice collection 0 collection.length))
    else some (gatherOne futures none)

/-- The constant `std::numeric_limits<int>::max()`. -/
def INT_MAX : Int := 2147483647

/-- Conversion of an `int` to `size_t`, as done by `finalResults.size() >= count` and by
`finalResults.resize(count)`. -/
def toSizeT (count : Int) : Nat := (count % (2 : Int) ^ 64).toNat

/-- The aggregation loop of `parallelizeCollectionReturnMany`; the last two arguments
are the locals `finalResults` and `pendingCount`. -/
def gatherMany {ε β : Type} (count : Int) : List (ChunkFuture ε (List β)) → List β →
    Bool → Except ε (List β)
  | [], finalResults, _ => .ok finalResults
  | fut :: rest, finalResults, pendingCount =>
    match fut.get with
    | .error e => .error e
    | .ok partialResults =>
      if pendingCount then
        let inserted := finalResults ++ partialResults
        if inserted.length ≥ toSizeT count then
          gatherMany count rest (inserted.take (toSizeT count)) false
        else gatherMany count rest inserted true
      else gatherMany count rest finalResults pendingCount

/-- Embedding of `ResultThreadPool::parallelizeCollectionReturnMany`; `threadCnt` is the
worker count of the pool. -/
def parallelizeCollectionReturnMany {α ε β : Type} (collection : List α)
    (task : List α → Except ε (List β)) (count : Int) (minChunkSize threadCnt : Nat) :
    Option (Except ε (List β)) :=
  match splitChunksWithFutures collection task minChunkSize threadCnt with
  | none => none
  | some futures =>
    if futures.length = 0 then
      some (task (slice collection 0 collection.length))
    else
      let count := if count = 0 then INT_MAX else count
      some (gatherMany count futures [] true)

/-! ### Client tasks of `test/thread/main.cpp`

The test collections hold small non-negative `int`s, so the numbers are natural numbers and
no product below wraps.  `std::vector::operator[]` is only used in range. -/

/-- Table `below_20` of `convertBelowThousand`. -/
def below_20 : List String :=
  ["", "one", "two", "three", "four", "five", "six", "seven", "eight", "nine", "ten",
   "eleven", "twelve", "thirteen", "fourteen", "fifteen", "sixteen", "seventeen",
   "eighteen", "nineteen"]

/-- Table `tens` of `convertBelowThousand`. -/
def tens : List String :=
  ["", "", "twenty", "thirty", "forty", "fifty", "sixty", "seventy", "eighty", "ninety"]

/-- Embedding of `convertBelowThousand(num)` for `0 <= num < 1000`. -/
def convertBelowThousand (num : Nat) : String :=
  let result := ""
  let hundreds : String × Nat :=
    if num ≥ 100 then
      let result := result ++ (below_20.getD (num / 100) "" ++ " hundred")
      let num := num % 100
      if num > 0 then (result ++ " and ", num) else (result, num)
    else (result, num)
  let result := hundreds.1
  let num := hundreds.2
  if num ≥ 20 then
    let result := result ++ tens.getD (num / 10) ""
    if num % 10 > 0 then result ++ ("-" ++ below_20.getD (num % 10) "") else result
  else if num > 0 then result ++ below_20.getD num ""
  else result

/-- Embedding of `numberToWords(num)` for `num >= 0`. -/
def numberToWords (num : Nat) : String :=
  if num = 0 then "zero"
  else if num ≥ 1000000 then "number too large"
  else
    let thousands := num / 1000
    let remainder := num % 1000
    let result := ""
    let result :=
      if thousands > 0 then
        let result := result ++ (convertBelowThousand thousands ++ " thousand")
        if remainder > 0 then result ++ (if remainder < 100 then " and " else " ")
        else result
      else result
    if remainder > 0 then result ++ convertBelowThousand remainder else result

/-- The lambda `numberText` of `manyResponsesSingleVsMulti`: one pair
`(number, numberToWords(number))` per element of the range, in order. -/
def numberText {ε : Type} (range : List (Nat × String)) :
    Except ε (List (Nat × String)) :=
  .ok (range.map (fun it => (it.1, numberToWords it.1)))

/-- The loop `for (int i = 5; i * i <= n; i += 6)` of `isPrime`.  The first argument
bounds the number of iterations; `isPrime` passes `n`, after which `i * i > n`. -/
def isPrimeLoop (n : Nat) : Nat → Nat → Bool
  | 0, _ => true
  | fuel + 1, i =>
    if i * i ≤ n then
      if n % i = 0 ∨ n % (i + 2) = 0 then false else isPrimeLoop n fuel (i + 6)
    else true

/-- Embedding of `isPrime(n)` for `n >= 0`. -/
def isPrime (n : Nat) : Bool :=
  if n ≤ 1 then false
  else if n ≤ 3 then true
  else if n % 2 = 0 ∨ n % 3 = 0 then false
  else isPrimeLoop n n 5

/-- The loop `for (int i = 2; i <= std::sqrt(n); ++i)` of `isProductOfTwoPrimes`; for
integers `i <= sqrt(n)` is `i * i <= n`.  The first argument bounds the number of
iterations; `isProductOfTwoPrimes` passes `n`, after which `i * i > n`. -/
def isProductOfTwoPrimesLoop (n : Nat) : Nat → Nat → Option (Nat × Nat)
  | 0, _ => none
  | fuel + 1, i =>
    if i * i ≤ n then
      if n % i = 0 ∧ isPrime i ∧ isPrime (n / i) then some (i, n / i)
      else isProductOfTwoPrimesLoop n fuel (i + 1)
    else none

/-- Embedding of `isProductOfTwoPrimes(n)` for `n >= 0`. -/
def isProductOfTwoPrimes (n : Nat) : Option (Nat × Nat) :=
  isProductOfTwoPrimesLoop n n 2

/-- The lambda `searchProductOfTwoPrimes` of `singleResponseSingleVsMulti`. -/
def searchProductOfTwoPrimes {ε : Type} (range : List Nat) :
    Except ε (Option (Nat × Nat)) :=
  match range.find? (fun val => (isProductOfTwoPrimes val).isSome) with
  | none => .ok none
  | some found => .ok (isProductOfTwoPrimes found)

/-- The collection of `manyResponsesSingleVsMulti`: the pairs `(cnt, "")` for
`cnt = 1, ..., 10000`. -/
def collection10000 : List (Nat × String) :=
  (List.range 10000).map (fun cnt => (cnt + 1, ""))

/-- The list `onePrimeOnList` that the construction of `singleResponseSingleVsMulti`
yields with `onePrimeOnListMaxSize = 16`: sixteen products of two consecutive non-primes
followed by `7 * 11`. -/
def onePrimeOnList : List Nat :=
  [0, 24, 72, 120, 210, 288, 420, 528, 650, 756, 960, 1122, 1260, 1482, 1680, 1980, 77]

/-! ### The aggregation loops with the awaited futures recorded -/

/-- State of a `ResultThreadPool` whose queued tasks have type `τ`. -/
structure Pool (τ : Type) where
  /-- Size of the vector `workers`. -/
  workers : Nat
  /-- The queue `tasks`, front first. -/
  tasks : List τ
  /-- The flag `stop`. -/
  stop : Bool

/-- Failure of the constructor: `std::system_error` raised by the creation of a thread. -/
inductive ConstructionFailure where
  | system_error

/-- The loop `for (int i = 0; i < maxCount; ++i) workers.emplace_back(...)` of the
constructor.  `spawns w` tells whether creating a thread succeeds when `w` workers exist.
The first numeric argument bounds the number of iterations; the constructor passes
`maxCount.toNat`, after which `i < maxCount` is false.  The other two are `i` and the size
of `workers`. -/
def constructLoop (spawns : Nat → Bool) (maxCount : Int) :
    Nat → Int → Nat → Except ConstructionFailure Nat
  | 0, _, workers => .ok workers
  | fuel + 1, i, workers =>
    if i < maxCount then
      if spawns workers then constructLoop spawns maxCount fuel (i + 1) (workers + 1)
      else .error .system_error
    else .ok workers

/-- Embedding of the constructor `ResultThreadPool::ResultThreadPool(int maxCount)`. -/
def construct {τ : Type} (spawns : Nat → Bool) (maxCount : Int) :
    Except ConstructionFailure (Pool τ) :=
  match constructLoop spawns maxCount maxCount.toNat 0 0 with
  | .ok workers => .ok ⟨workers, [], false⟩
  | .error failure => .error failure

/-- Embedding of `ResultThreadPool::getThreadCount`. -/
def getThreadCount {τ : Type} (pool : Pool τ) : Nat := pool.workers

/-- Embedding of `ResultThreadPool::enqueue`: `tasks.push(task)` under the lock. -/
def enqueue {τ : Type} (pool : Pool τ) (task : τ) : Pool τ :=
  ⟨pool.workers, pool.tasks ++ [task], pool.stop⟩

/-- Embedding of the signal of the destructor `ResultThreadPool::~ResultThreadPool`:
`stop = true`, after which the destructor wakes the workers and joins them. -/
def destroy {τ : Type} (pool : Pool τ) : Pool τ :=
  ⟨pool.workers, pool.tasks, true⟩

/-- Result of one pass of a worker through the locked block of its loop. -/
inductive WorkerOutcome (τ : Type) where
  /-- The wait predicate is false: the worker stays blocked in `condition.wait`. -/
  | waiting
  /-- The worker left its loop through `return`. -/
  | exited
  /-- The worker called `tasks.front()` on an empty queue. -/
  | undefined
  /-- The worker moved `task` out of the queue, leaving the pool as given, and calls it. -/
  | dequeued (task : τ) (pool : Pool τ)

/-- One pass of a worker through the locked block of its loop (lines 10 to 21 of
`resultThreadPool.cpp`), from the evaluation of the wait predicate on.
`stopSetMeanwhile` tells whether the destructor set `stop` between the evaluation of the
wait predicate and the `if`. -/
def workerIteration {τ : Type} (pool : Pool τ) (stopSetMeanwhile : Bool) :
    WorkerOutcome τ :=
  if ¬ (pool.stop ∨ ¬ pool.tasks.isEmpty) then .waiting
  else
    let stop := pool.stop || stopSetMeanwhile
    if stop ∧ pool.tasks.isEmpty then .exited
    else
      match pool.tasks with
      | [] => .undefined
      | task :: rest => .dequeued task ⟨pool.workers, rest, stop⟩

/-- How a call `task()` ends, as seen by the worker that made it. -/
inductive TaskRun where
  /-- The call returned. -/
  | returned
  /-- The call raised an exception derived from `std::exception`. -/
  | threwStdException
  /-- The call raised something else. -/
  | threwOther

/-- What becomes of a worker after `try { task(); } catch (std::exception &e) { }`. -/
inductive WorkerFate where
  /-- The worker starts the next iteration of `while (true)`. -/
  | nextIteration
  /-- The exception leaves the thread function. -/
  | terminated

/-- The `try`/`catch` around `task()` in the worker loop (lines 22 to 26). -/
def afterTask : TaskRun → WorkerFate
  | .returned => .nextIteration
  | .threwStdException => .nextIteration
  | .threwOther => .terminated

/-- An exception in flight inside the task enqueued by `enqueueWithResult`. -/
inductive Thrown (ε : Type) where
  /-- Raised by the bound function. -/
  | raised (e : ε)
  /-- The `std::future_error` of a second write to a promise. -/
  | promise_already_satisfied

/-- Shared state of a `std::promise<R>` and its future. -/
structure Promise (ε R : Type) where
  /-- The writes the shared state accepted, oldest first; it is ready when there is one. -/
  writes : List (Except (Thrown ε) R)

/-- Embedding of `std::promise<R>::set_value`. -/
def Promise.set_value {ε R : Type} (prom : Promise ε R) (value : R) :
    Except (Thrown ε) (Promise ε R) :=
  if prom.writes.isEmpty then .ok ⟨prom.writes ++ [.ok value]⟩
  else .error .promise_already_satisfied

/-- Embedding of `std::promise<R>::set_exception`. -/
def Promise.set_exception {ε R : Type} (prom : Promise ε R) (ex : Thrown ε) :
    Except (Thrown ε) (Promise ε R) :=
  if prom.writes.isEmpty then .ok ⟨prom.writes ++ [.error ex]⟩
  else .error .promise_already_satisfied

/-- Embedding of `std::future<R>::get` on the future of the promise: `none` while the
shared state is not ready (the caller blocks), else the value or the failure to re-raise. -/
def Promise.get {ε R : Type} (prom : Promise ε R) : Option (Except (Thrown ε) R) :=
  prom.writes.head?

/-- The lambda that `enqueueWithResult` enqueues (lines 60 to 66 of
`resultThreadPool.h`), run on the shared state `prom`: the new shared state, or the
exception that leaves the lambda. -/
def resultTask {ε R : Type} (boundTask : Unit → Except ε R) (prom : Promise ε R) :
    Except (Thrown ε) (Promise ε R) :=
  let attempt : Except (Thrown ε) (Promise ε R) :=
    match boundTask () with
    | .ok value => prom.set_value value
    | .error e => .error (.raised e)
  match attempt with
  | .ok written => .ok written
  | .error ex => prom.set_exception ex

/-- How the worker sees a run of the lambda of `enqueueWithResult`:
`std::future_error` derives from `std::exception`, nothing is known of what the bound
function raises. -/
def resultTaskRun {ε R : Type} : Except (Thrown ε) (Promise ε R) → TaskRun
  | .ok _ => .returned
  | .error .promise_already_satisfied => .threwStdException
  | .error (.raised _) => .threwOther

/-- Embedding of `ResultThreadPool::enqueueWithResult`: the shared state of the fresh
promise, which the returned future reads, and the pool after `enqueue`. -/
def enqueueWithResult {ε R : Type}
    (pool : Pool (Promise ε R → Except (Thrown ε) (Promise ε R)))
    (boundTask : Unit → Except ε R) :
    Promise ε R × Pool (Promise ε R → Except (Thrown ε) (Promise ε R)) :=
  let prom : Promise ε R := ⟨[]⟩
  (prom, enqueue pool (resultTask boundTask))

/-- A step on the pool state. -/
inductive PoolEvent (τ : Type) where
  /-- A call `enqueue(task)`. -/
  | submitted (task : τ)
  /-- A pass of some worker through its locked block. -/
  | workerPass (stopSetMeanwhile : Bool)
  /-- The destructor sets `stop`. -/
  | destroyed

/-- The pool state and the tasks dequeued so far, oldest first, after the events of the
list have happened in order. -/
def runEvents {τ : Type} : List (PoolEvent τ) → Pool τ → List τ → Pool τ × List τ
  | [], pool, dequeued => (pool, dequeued)
  | .submitted task :: events, pool, dequeued =>
    runEvents events (enqueue pool task) dequeued
  | .workerPass stopSetMeanwhile :: events, pool, dequeued =>
    match workerIteration pool stopSetMeanwhile with
    | .dequeued task pool2 => runEvents events pool2 (dequeued ++ [task])
    | _ => runEvents events pool dequeued
  | .destroyed :: events, pool, dequeued => runEvents events (destroy pool) dequeued

/-- The tasks that the events of the list submit, in order. -/
def submittedTasks {τ : Type} : List (PoolEvent τ) → List τ
  | [] => []
  | .submitted task :: events => task :: submittedTasks events
  | _ :: events => submittedTasks events

/-- Specification predicate: the futures `fs`, in order, carry non-empty ranges that
tile the half-open interval from `s` to `e`. -/
def Tiles {ε R : Type} : Nat → Nat → List (ChunkFuture ε R) → Prop
  | s, e, [] => s = e
  | s, e, f :: fs => f.chunkStart = s ∧ s < f.chunkEnd ∧ f.chunkEnd ≤ e ∧ Tiles f.chunkEnd e fs

/-! ## Chunk planning -/

section planning

variable {α ε R : Type}

theorem Tiles.le {s e : Nat} {fs : List (ChunkFuture ε R)} (h : Tiles s e fs) : s ≤ e := by
  induction fs generalizing s with
  | nil => exact le_of_eq h
  | cons f fs ih =>
    obtain ⟨_, h2, h3, _⟩ := h
    omega

theorem splitLoop_length_le (collection : List α) (task : List α → Except ε R)
    (step n s : Nat) : (splitLoop collection task step n s).length ≤ n := by
  induction n generalizing s with
  | zero => simp [splitLoop]
  | succ n ih =>
    unfold splitLoop
    split
    · simp
    · simpa using ih _

theorem splitLoop_tiles (collection : List α) (task : List α → Except ε R)
    (step : Nat) (hstep : 0 < step) (n s : Nat) (hs : s ≤ collection.length)
    (hn : collection.length - s ≤ n * step) :
    Tiles s collection.length (splitLoop collection task step n s) := by
  induction n generalizing s with
  | zero =>
    simp only [splitLoop, Tiles]
    omega
  | succ n ih =>
    unfold splitLoop
    split
    · next h => simpa [Tiles] using h
    · next h =>
      have hlt : s < collection.length := lt_of_le_of_ne hs h
      have hmin : 0 < min step (collection.length - s) := by
        rw [lt_min_iff]; omega
      have hle : min step (collection.length - s) ≤ collection.length - s :=
        min_le_right _ _
      have hmul : (n + 1) * step = n * step + step := by ring
      have hrest : collection.length - (s + min step (collection.length - s)) ≤ n * step := by
        rcases le_total step (collection.length - s) with h1 | h1
        · rw [min_eq_left h1]
          omega
        · rw [min_eq_right h1]
          omega
      exact ⟨rfl, by show s < s + _; omega, by show s + _ ≤ _; omega,
        ih _ (by show s + _ ≤ _; omega) hrest⟩

theorem splitLoop_get (collection : List α) (task : List α → Except ε R)
    (step n s : Nat) :
    ∀ f ∈ splitLoop collection task step n s,
      f.get = task (slice collection f.chunkStart f.chunkEnd) := by
  induction n generalizing s with
  | zero => simp [splitLoop]
  | succ n ih =>
    unfold splitLoop
    split
    · simp
    · intro f hf
      rcases List.mem_cons.1 hf with rfl | hf
      · rfl
      · exact ih _ f hf

theorem step_pos {S T : Nat} (hS : 1 ≤ S) : 0 < S / T + S % T := by
  have := Nat.div_add_mod S T
  rcases Nat.eq_zero_or_pos (S / T) with h | h
  · rw [h] at this ⊢
    simp at this
    omega
  · omega

theorem size_le_threads_mul_step (S T : Nat) (hT : 1 ≤ T) : S ≤ T * (S / T + S % T) := by
  have h1 := Nat.div_add_mod S T
  have h2 : S % T ≤ T * (S % T) := Nat.le_mul_of_pos_left _ hT
  rw [Nat.mul_add]
  omega

theorem splitChunksWithFutures_eq_loop (collection : List α)
    (task : List α → Except ε R) (M T : Nat) (hT : 2 ≤ T)
    (hM : M ≤ collection.length / T) :
    splitChunksWithFutures collection task M T =
      some (splitLoop collection task
        (collection.length / T + collection.length % T) T 0) := by
  unfold splitChunksWithFutures
  have h0 : ¬ T = 0 := by omega
  have h1 : ¬ (collection.length / T < M ∨ T ≤ 1) := by omega
  simp only [h0, h1, if_false]

theorem splitChunksWithFutures_declined (collection : List α)
    (task : List α → Except ε R) (M T : Nat) (hT : 1 ≤ T)
    (hdecl : collection.length / T < M ∨ T ≤ 1) :
    splitChunksWithFutures collection task M T = some [] := by
  unfold splitChunksWithFutures
  have h0 : ¬ T = 0 := by omega
  simp only [h0, hdecl, if_false, if_true]

theorem Tiles.head_start {s e : Nat} {fs : List (ChunkFuture ε R)} (h : Tiles s e fs)
    (hs : s < e) : ∃ f, fs.head? = some f ∧ f.chunkStart = s := by
  cases fs with
  | nil => exact absurd h (Nat.ne_of_lt hs)
  | cons f fs => exact ⟨f, rfl, h.1⟩

theorem Tiles.last_end {s e : Nat} {fs : List (ChunkFuture ε R)} (h : Tiles s e fs)
    (hs : s < e) : ∃ f, fs.getLast? = some f ∧ f.chunkEnd = e := by
  induction fs generalizing s with
  | nil => exact absurd h (Nat.ne_of_lt hs)
  | cons f fs ih =>
    obtain ⟨_, _, h3, h4⟩ := h
    cases fs with
    | nil => exact ⟨f, rfl, h4⟩
    | cons g gs =>
      rw [List.getLast?_cons_cons]
      refine ih h4 ?_
      have h5 := h4.2.1
      have h6 := h4.2.2.1
      omega

theorem Tiles.start_le_end {s e : Nat} {fs : List (ChunkFuture ε R)} (h : Tiles s e fs) :
    ∀ f ∈ fs, f.chunkStart < f.chunkEnd ∧ f.chunkEnd ≤ e := by
  induction fs generalizing s with
  | nil => simp
  | cons f fs ih =>
    obtain ⟨h1, h2, h3, h4⟩ := h
    intro g hg
    rcases List.mem_cons.1 hg with rfl | hg
    · omega
    · exact ih h4 g hg

theorem Tiles.adjacent {s e : Nat} {fs : List (ChunkFuture ε R)} (h : Tiles s e fs) :
    ∀ (i : Nat) (f g : ChunkFuture ε R), fs[i]? = some f → fs[i + 1]? = some g →
      f.chunkEnd = g.chunkStart := by
  induction fs generalizing s with
  | nil => simp
  | cons a fs ih =>
    obtain ⟨_, _, _, h4⟩ := h
    intro i f g hf hg
    cases i with
    | zero =>
      cases fs with
      | nil => simp at hg
      | cons b bs =>
        simp at hf hg
        subst hf hg
        exact h4.1.symm
    | succ i =>
      simp only [List.getElem?_cons_succ] at hf hg
      exact ih h4 i f g hf hg

theorem Tiles.countP_eq {s e : Nat} {fs : List (ChunkFuture ε R)} (h : Tiles s e fs)
    (j : Nat) :
    (j < s → fs.countP (fun f => decide (f.chunkStart ≤ j ∧ j < f.chunkEnd)) = 0) ∧
    (s ≤ j → j < e → fs.countP (fun f => decide (f.chunkStart ≤ j ∧ j < f.chunkEnd)) = 1) := by
  induction fs generalizing s with
  | nil =>
    refine ⟨fun _ => rfl, fun h1 h2 => ?_⟩
    simp only [Tiles] at h
    omega
  | cons f fs ih =>
    obtain ⟨h1, h2, h3, h4⟩ := h
    obtain ⟨ih0, ih1⟩ := ih h4
    refine ⟨fun hj => ?_, fun hj hje => ?_⟩
    · rw [List.countP_cons, ih0 (by omega)]
      have : ¬ (f.chunkStart ≤ j ∧ j < f.chunkEnd) := by omega
      simp [this]
    · rw [List.countP_cons]
      by_cases hlt : j < f.chunkEnd
      · rw [ih0 hlt]
        have : f.chunkStart ≤ j ∧ j < f.chunkEnd := by omega
        simp [this]
      · rw [ih1 (by omega) hje]
        have : ¬ (f.chunkStart ≤ j ∧ j < f.chunkEnd) := by omega
        simp [this]

theorem splitLoop_at_end (collection : List α) (task : List α → Except ε R)
    (step n : Nat) : splitLoop collection task step n collection.length = [] := by
  cases n with
  | zero => rfl
  | succ n => simp [splitLoop]

theorem splitLoop_widths (collection : List α) (task : List α → Except ε R)
    (step n s : Nat) (hs : s ≤ collection.length) :
    ∀ (i : Nat) (f : ChunkFuture ε R),
      (splitLoop collection task step n s)[i]? = some f →
      f.chunkStart < collection.length ∧
      f.chunkEnd = f.chunkStart + min step (collection.length - f.chunkStart) ∧
      (i + 1 < (splitLoop collection task step n s).length →
        f.chunkEnd - f.chunkStart = step) := by
  induction n generalizing s with
  | zero => simp [splitLoop]
  | succ n ih =>
    intro i f hf
    unfold splitLoop at hf ⊢
    split at hf
    · simp at hf
    · next h =>
      have hlt : s < collection.length := lt_of_le_of_ne hs h
      have hle : s + min step (collection.length - s) ≤ collection.length := by
        have := min_le_right step (collection.length - s)
        omega
      rw [if_neg h]
      cases i with
      | zero =>
        simp only [List.getElem?_cons_zero, Option.some.injEq] at hf
        subst hf
        refine ⟨hlt, rfl, fun hlen => ?_⟩
        show s + min step (collection.length - s) - s = step
        rcases le_total step (collection.length - s) with h1 | h1
        · rw [min_eq_left h1]
          omega
        · exfalso
          rw [min_eq_right h1] at hlen
          have hend : s + (collection.length - s) = collection.length := by omega
          simp only [hend, splitLoop_at_end, List.length_cons, List.length_nil] at hlen
          omega
      | succ i =>
        simp only [List.getElem?_cons_succ] at hf
        obtain ⟨h1, h2, h3⟩ := ih _ hle i f hf
        refine ⟨h1, h2, fun hlen => h3 ?_⟩
        simp only [List.length_cons] at hlen
        omega

end planning

/-! ## Aggregation loops -/

section aggregation

variable {ε R β : Type}

theorem gatherOne_of_ok (fs : List (ChunkFuture ε (Option R))) (rs : List (Option R))
    (hok : fs.map ChunkFuture.get = rs.map Except.ok) (acc : Option R) :
    gatherOne fs acc = .ok (acc.or (rs.findSome? id)) := by
  induction fs generalizing rs acc with
  | nil =>
    cases rs with
    | nil => simp [gatherOne]
    | cons r rs => simp at hok
  | cons f fs ih =>
    cases rs with
    | nil => simp at hok
    | cons r rs =>
      simp only [List.map_cons, List.cons.injEq] at hok
      obtain ⟨h1, h2⟩ := hok
      unfold gatherOne
      simp only [h1]
      cases r <;> cases acc <;> simp [ih rs h2]

theorem gatherMany_done (count : Int) (fs : List (ChunkFuture ε (List β)))
    (rs : List (List β)) (hok : fs.map ChunkFuture.get = rs.map Except.ok)
    (acc : List β) : gatherMany count fs acc false = .ok acc := by
  induction fs generalizing rs with
  | nil => simp [gatherMany]
  | cons f fs ih =>
    cases rs with
    | nil => simp at hok
    | cons r rs =>
      simp only [List.map_cons, List.cons.injEq] at hok
      obtain ⟨h1, h2⟩ := hok
      unfold gatherMany
      simp only [h1]
      simpa using ih rs h2

theorem gatherMany_pending (count : Int) (fs : List (ChunkFuture ε (List β)))
    (rs : List (List β)) (hok : fs.map ChunkFuture.get = rs.map Except.ok)
    (acc : List β) (hacc : rs = [] → acc.length ≤ toSizeT count) :
    gatherMany count fs acc true = .ok ((acc ++ rs.flatten).take (toSizeT count)) := by
  induction fs generalizing rs acc with
  | nil =>
    cases rs with
    | nil => simp [gatherMany, List.take_of_length_le (hacc rfl)]
    | cons r rs => simp at hok
  | cons f fs ih =>
    cases rs with
    | nil => simp at hok
    | cons r rs =>
      simp only [List.map_cons, List.cons.injEq] at hok
      obtain ⟨h1, h2⟩ := hok
      unfold gatherMany
      simp only [h1, if_true, List.flatten_cons]
      by_cases hlen : (acc ++ r).length ≥ toSizeT count
      · simp only [hlen, if_true]
        rw [gatherMany_done count fs rs h2, ← List.append_assoc,
          List.take_append_of_le_length hlen]
      · simp only [hlen, if_false]
        rw [ih rs h2 (acc ++ r) (fun _ => le_of_lt (not_le.1 hlen)), List.append_assoc]

theorem toSizeT_of_pos {c : Int} (h0 : 0 ≤ c) (h1 : c < 2 ^ 31) : toSizeT c = c.toNat := by
  unfold toSizeT
  rw [Int.emod_eq_of_lt h0 (by omega)]

theorem toSizeT_INT_MAX : toSizeT INT_MAX = 2147483647 := by
  decide

end aggregation

/-! ## The two strategies in terms of their loops -/

section strategies

variable {α ε R β : Type}

theorem slice_whole (collection : List α) :
    slice collection 0 collection.length = collection := by
  simp [slice]

theorem returnOne_of_futures (collection : List α) (task : List α → Except ε (Option R))
    (M T : Nat) (futures : List (ChunkFuture ε (Option R)))
    (hsplit : splitChunksWithFutures collection task M T = some futures)
    (hne : futures ≠ []) :
    parallelizeCollectionReturnOne collection task M T = some (gatherOne futures none) := by
  unfold parallelizeCollectionReturnOne
  rw [hsplit]
  have : futures.length ≠ 0 := by simpa using hne
  simp only [this, if_false]

theorem returnOne_of_no_futures (collection : List α)
    (task : List α → Except ε (Option R)) (M T : Nat)
    (hsplit : splitChunksWithFutures collection task M T = some []) :
    parallelizeCollectionReturnOne collection task M T = some (task collection) := by
  unfold parallelizeCollectionReturnOne
  rw [hsplit]
  simp [slice_whole]

theorem returnMany_of_futures (collection : List α) (task : List α → Except ε (List β))
    (count : Int) (M T : Nat) (futures : List (ChunkFuture ε (List β)))
    (hsplit : splitChunksWithFutures collection task M T = some futures)
    (hne : futures ≠ []) :
    parallelizeCollectionReturnMany collection task count M T =
      some (gatherMany (if count = 0 then INT_MAX else count) futures [] true) := by
  unfold parallelizeCollectionReturnMany
  rw [hsplit]
  have : futures.length ≠ 0 := by simpa using hne
  simp only [this, if_false]

theorem returnMany_of_no_futures (collection : List α)
    (task : List α → Except ε (List β)) (count : Int) (M T : Nat)
    (hsplit : splitChunksWithFutures collection task M T = some []) :
    parallelizeCollectionReturnMany collection task count M T = some (task collection) := by
  unfold parallelizeCollectionReturnMany
  rw [hsplit]
  simp [slice_whole]

theorem returnMany_of_ok (collection : List α) (task : List α → Except ε (List β))
    (count : Int) (M T : Nat) (futures : List (ChunkFuture ε (List β)))
    (rs : List (List β))
    (hsplit : splitChunksWithFutures collection task M T = some futures)
    (hne : futures ≠ []) (hok : futures.map ChunkFuture.get = rs.map Except.ok) :
    parallelizeCollectionReturnMany collection task count M T =
      some (.ok (rs.flatten.take (toSizeT (if count = 0 then INT_MAX else count)))) := by
  rw [returnMany_of_futures collection task count M T futures hsplit hne,
    gatherMany_pending _ futures rs hok []]
  · simp
  · intro h
    subst h
    cases futures with
    | nil => exact absurd rfl hne
    | cons f fs => simp at hok

theorem findSome?_id_of_first (rs : List (Option R)) (i : Nat) (v : R)
    (hi : rs[i]? = some (some v)) (hbefore : ∀ j, j < i → rs[j]? = some none) :
    rs.findSome? id = some v := by
  induction rs generalizing i with
  | nil => simp at hi
  | cons r rs ih =>
    cases i with
    | zero =>
      simp at hi
      subst hi
      simp [List.findSome?_cons]
    | succ i =>
      have h0 : r = none := by simpa using hbefore 0 (Nat.succ_pos i)
      subst h0
      rw [List.findSome?_cons]
      simp only [id]
      exact ih i (by simpa using hi) (fun j hj => by simpa using hbefore (j + 1) (by omega))

end strategies

/-! ## Tasks that distribute over concatenation -/

section distributive

variable {α ε R β : Type}

theorem Tiles.flatten_slices (collection : List α) {s : Nat}
    {fs : List (ChunkFuture ε R)} (h : Tiles s collection.length fs) :
    (fs.map (fun f => slice collection f.chunkStart f.chunkEnd)).flatten =
      collection.drop s := by
  induction fs generalizing s with
  | nil =>
    simp only [Tiles] at h
    subst h
    simp
  | cons f fs ih =>
    obtain ⟨h1, h2, h3, h4⟩ := h
    rw [List.map_cons, List.flatten_cons, ih h4]
    subst h1
    have hdrop : List.drop f.chunkEnd collection =
        List.drop (f.chunkEnd - f.chunkStart) (List.drop f.chunkStart collection) := by
      rw [List.drop_drop]
      congr 1
      omega
    rw [slice, hdrop, List.take_append_drop]

theorem map_get_eq (collection : List α) (task : List α → Except ε R) (t : List α → R)
    (htask : ∀ xs, task xs = .ok (t xs)) (fs : List (ChunkFuture ε R))
    (hget : ∀ f ∈ fs, f.get = task (slice collection f.chunkStart f.chunkEnd)) :
    fs.map ChunkFuture.get =
      ((fs.map (fun f => slice collection f.chunkStart f.chunkEnd)).map t).map
        Except.ok := by
  rw [List.map_map, List.map_map]
  apply List.map_congr_left
  intro f hf
  simp [hget f hf, htask]

theorem append_hom_nil (t : List α → List β)
    (hhom : ∀ xs ys, t (xs ++ ys) = t xs ++ t ys) : t [] = [] := by
  have h := congrArg List.length (hhom [] [])
  simp only [List.append_nil, List.length_append] at h
  exact List.length_eq_zero.1 (by omega)

theorem append_hom_flatten (t : List α → List β)
    (hhom : ∀ xs ys, t (xs ++ ys) = t xs ++ t ys) (xss : List (List α)) :
    (xss.map t).flatten = t xss.flatten := by
  induction xss with
  | nil => simp [append_hom_nil t hhom]
  | cons xs xss ih => simp [hhom, ih]

theorem or_hom_findSome (t : List α → Option R)
    (hhom : ∀ xs ys, t (xs ++ ys) = (t xs).or (t ys)) (xss : List (List α))
    (hne : xss ≠ []) : (xss.map t).findSome? id = t xss.flatten := by
  induction xss with
  | nil => exact absurd rfl hne
  | cons xs xss ih =>
    cases xss with
    | nil =>
      cases h : t xs <;> simp [List.findSome?_cons, h]
    | cons ys yss =>
      have ih2 := ih (by simp)
      have hflat : (xs :: ys :: yss).flatten = xs ++ (ys :: yss).flatten :=
        List.flatten_cons
      rw [hflat, hhom xs, List.map_cons, List.findSome?_cons, ih2]
      cases h : t xs <;> simp

theorem splitChunksWithFutures_cases (collection : List α) (task : List α → Except ε R)
    (M T : Nat) (hT : 1 ≤ T) :
    splitChunksWithFutures collection task M T = some [] ∨
      ∃ futures, splitChunksWithFutures collection task M T = some futures ∧
        futures ≠ [] ∧ Tiles 0 collection.length futures ∧
        ∀ f ∈ futures, f.get = task (slice collection f.chunkStart f.chunkEnd) := by
  by_cases hdecl : collection.length / T < M ∨ T ≤ 1
  · exact Or.inl (splitChunksWithFutures_declined collection task M T hT hdecl)
  · have hT2 : 2 ≤ T := by omega
    have hM : M ≤ collection.length / T := by omega
    have heq := splitChunksWithFutures_eq_loop collection task M T hT2 hM
    rcases Nat.eq_zero_or_pos collection.length with h0 | hpos
    · left
      rw [heq]
      have hend := splitLoop_at_end collection task
        (collection.length / T + collection.length % T) T
      have hzero : splitLoop collection task
          (collection.length / T + collection.length % T) T 0 = [] := by
        rw [← h0]
        exact hend
      rw [hzero]
    · right
      have htiles := splitLoop_tiles collection task
        (collection.length / T + collection.length % T) (step_pos hpos) T 0
        (Nat.zero_le _) (by simpa using size_le_threads_mul_step collection.length T hT)
      refine ⟨_, heq, ?_, htiles, splitLoop_get collection task _ T 0⟩
      intro hnil
      rw [hnil] at htiles
      simp only [Tiles] at htiles
      omega

theorem returnOne_of_or_hom (collection : List α) (task : List α → Except ε (Option R))
    (t : List α → Option R) (htask : ∀ xs, task xs = .ok (t xs))
    (hhom : ∀ xs ys, t (xs ++ ys) = (t xs).or (t ys)) (M T : Nat) (hT : 1 ≤ T) :
    parallelizeCollectionReturnOne collection task M T = some (task collection) := by
  rcases splitChunksWithFutures_cases collection task M T hT with h | ⟨fs, h, hne, htiles, hget⟩
  · exact returnOne_of_no_futures collection task M T h
  · have hok := map_get_eq collection task t htask fs hget
    rw [returnOne_of_futures collection task M T fs h hne,
      gatherOne_of_ok fs _ hok none, Option.none_or,
      or_hom_findSome t hhom _ (by simpa using hne), htiles.flatten_slices collection,
      htask]
    simp

theorem returnMany_of_append_hom (collection : List α)
    (task : List α → Except ε (List β)) (t : List α → List β)
    (htask : ∀ xs, task xs = .ok (t xs))
    (hhom : ∀ xs ys, t (xs ++ ys) = t xs ++ t ys) (count : Int) (M T : Nat)
    (hT : 1 ≤ T) :
    ∃ futures, splitChunksWithFutures collection task M T = some futures ∧
      (futures = [] →
        parallelizeCollectionReturnMany collection task count M T =
          some (.ok (t collection))) ∧
      (futures ≠ [] →
        parallelizeCollectionReturnMany collection task count M T =
          some (.ok ((t collection).take
            (toSizeT (if count = 0 then INT_MAX else count))))) := by
  rcases splitChunksWithFutures_cases collection task M T hT with h | ⟨fs, h, hne, htiles, hget⟩
  · refine ⟨[], h, fun _ => ?_, fun hne => absurd rfl hne⟩
    rw [returnMany_of_no_futures collection task count M T h, htask]
  · refine ⟨fs, h, fun hnil => absurd hnil hne, fun _ => ?_⟩
    have hok := map_get_eq collection task t htask fs hget
    rw [returnMany_of_ok collection task count M T fs _ h hne hok,
      append_hom_flatten t hhom, htiles.flatten_slices collection]
    simp

theorem find?_map_or_hom (p : α → Bool) (g : α → R) (xs ys : List α) :
    ((xs ++ ys).find? p).map g = ((xs.find? p).map g).or ((ys.find? p).map g) := by
  rw [List.find?_append]
  cases xs.find? p <;> simp

theorem searchProductOfTwoPrimes_eq (range : List Nat) :
    (searchProductOfTwoPrimes range : Except ε (Option (Nat × Nat))) =
      .ok ((range.find? (fun val => (isProductOfTwoPrimes val).isSome)).map
        (fun val => (isProductOfTwoPrimes val).getD (0, 0))) := by
  unfold searchProductOfTwoPrimes
  cases h : range.find? (fun val => (isProductOfTwoPrimes val).isSome) with
  | none => rfl
  | some found =>
    have hp := List.find?_some h
    simp only [Option.map_some']
    cases hv : isProductOfTwoPrimes found with
    | none => simp [hv] at hp
    | some pr => rfl

end distributive

/-- C1 (chunk coverage).  When the collection has at least one element, the pool at
least two workers and `S / T >= M`, `splitChunksWithFutures` returns at least one and at
most `T` futures whose ranges, in submission order, start at `0`, satisfy
`s_i <= e_i` and `e_i = s_(i+1)`, and end at `S`; every position below `S` lies in
exactly one of them. -/
theorem chunk_coverage {α ε R : Type} (collection : List α)
    (task : List α → Except ε R) (M T : Nat) (hS : 1 ≤ collection.length)
    (hT : 2 ≤ T) (hM : M ≤ collection.length / T) :
    ∃ futures, splitChunksWithFutures collection task M T = some futures ∧
      0 < futures.length ∧ futures.length ≤ T ∧
      (∃ f, futures.head? = some f ∧ f.chunkStart = 0) ∧
      (∀ f ∈ futures, f.chunkStart ≤ f.chunkEnd) ∧
      (∀ (i : Nat) (f g : ChunkFuture ε R), futures[i]? = some f →
        futures[i + 1]? = some g → f.chunkEnd = g.chunkStart) ∧
      (∃ f, futures.getLast? = some f ∧ f.chunkEnd = collection.length) ∧
      (∀ j, j < collection.length →
        futures.countP (fun f => decide (f.chunkStart ≤ j ∧ j < f.chunkEnd)) = 1) := by
  have htiles := splitLoop_tiles collection task
    (collection.length / T + collection.length % T) (step_pos hS) T 0 (Nat.zero_le _)
    (by simpa using size_le_threads_mul_step collection.length T (by omega))
  refine ⟨_, splitChunksWithFutures_eq_loop collection task M T hT hM, ?_,
    splitLoop_length_le _ _ _ _ _, htiles.head_start hS, ?_, htiles.adjacent,
    htiles.last_end hS, fun j hj => (htiles.countP_eq j).2 (Nat.zero_le _) hj⟩
  · obtain ⟨f, hf, _⟩ := htiles.head_start hS
    cases hfs : splitLoop collection task
        (collection.length / T + collection.length % T) T 0 with
    | nil => rw [hfs] at hf; simp at hf
    | cons a l => simp
  · intro f hf
    exact le_of_lt (htiles.start_le_end f hf).1

/-- Witness of C1: ten elements on four workers with minimum chunk size two. -/
theorem chunk_coverage_witness :
    ∃ futures, splitChunksWithFutures (List.range 10)
        (fun xs => (Except.ok xs : Except String (List Nat))) 2 4 = some futures ∧
      0 < futures.length ∧ futures.length ≤ 4 ∧
      (∃ f, futures.head? = some f ∧ f.chunkStart = 0) ∧
      (∀ f ∈ futures, f.chunkStart ≤ f.chunkEnd) ∧
      (∀ (i : Nat) (f g : ChunkFuture String (List Nat)), futures[i]? = some f →
        futures[i + 1]? = some g → f.chunkEnd = g.chunkStart) ∧
      (∃ f, futures.getLast? = some f ∧ f.chunkEnd = (List.range 10).length) ∧
      (∀ j, j < (List.range 10).length →
        futures.countP (fun f => decide (f.chunkStart ≤ j ∧ j < f.chunkEnd)) = 1) :=
  chunk_coverage (List.range 10) (fun xs => Except.ok xs) 2 4 (by decide) (by decide)
    (by decide)

/-- C2 (collect-many equals the single-threaded run).  For a task that returns `t range`
where `t` maps a concatenation of two ranges to the concatenation of its results (in
particular `t = List.map f`), on any pool of `T >= 1` workers and for any minimum chunk
size, `parallelizeCollectionReturnMany` with `count = 0` returns what the task returns
over the whole collection, provided that has fewer than `2 ^ 31 - 1` elements. -/
theorem collect_many_eq_single_threaded {α ε β : Type} (collection : List α)
    (task : List α → Except ε (List β)) (t : List α → List β) (M T : Nat) (hT : 1 ≤ T)
    (htask : ∀ xs, task xs = .ok (t xs))
    (hhom : ∀ xs ys, t (xs ++ ys) = t xs ++ t ys)
    (hlen : (t collection).length < 2 ^ 31 - 1) :
    parallelizeCollectionReturnMany collection task 0 M T = some (task collection) := by
  obtain ⟨fs, _, h1, h2⟩ := returnMany_of_append_hom collection task t htask hhom 0 M T hT
  rw [htask]
  by_cases hnil : fs = []
  · exact h1 hnil
  · rw [h2 hnil]
    simp only [if_true, toSizeT_INT_MAX]
    rw [List.take_of_length_le (by omega)]

/-- Witness of C2: four workers, the collection 1..10000 and the number-spelling task give
the 10,000 pairs of the single-threaded mapping, in order. -/
theorem collect_many_eq_single_threaded_witness :
    parallelizeCollectionReturnMany collection10000
        (numberText : List (Nat × String) → Except String (List (Nat × String))) 0 4 4 =
        some (.ok (collection10000.map (fun it => (it.1, numberToWords it.1)))) ∧
      (collection10000.map (fun it => (it.1, numberToWords it.1))).length = 10000 :=
  ⟨collect_many_eq_single_threaded collection10000 numberText
      (List.map (fun it => (it.1, numberToWords it.1))) 4 4 (by decide) (fun _ => rfl)
      (fun _ _ => List.map_append _ _ _) (by simp [collection10000]),
    by simp [collection10000]⟩

/-- C3 (find-one equals the single-threaded search).  For a task that returns `g x` for
the first element `x` of its range satisfying `p`, and absent when there is none, on any
pool of `T >= 1` workers and for any minimum chunk size,
`parallelizeCollectionReturnOne` returns what the task returns over the whole collection:
`g` of the first element of the collection satisfying `p`, or absent. -/
theorem find_one_eq_single_threaded {α ε R : Type} (collection : List α)
    (task : List α → Except ε (Option R)) (p : α → Bool) (g : α → R) (M T : Nat)
    (hT : 1 ≤ T) (htask : ∀ xs, task xs = .ok ((xs.find? p).map g)) :
    parallelizeCollectionReturnOne collection task M T = some (task collection) ∧
      parallelizeCollectionReturnOne collection task M T =
        some (.ok ((collection.find? p).map g)) := by
  have h := returnOne_of_or_hom collection task (fun xs => (xs.find? p).map g) htask
    (find?_map_or_hom p g) M T hT
  exact ⟨h, by rw [h, htask]⟩

/-- Witness of C3: four workers, minimum chunk size four, and a list whose only product of
two primes, `77 = 7 * 11`, is its last element. -/
theorem find_one_eq_single_threaded_witness :
    parallelizeCollectionReturnOne onePrimeOnList
        (searchProductOfTwoPrimes : List Nat → Except String (Option (Nat × Nat))) 4 4 =
        some (searchProductOfTwoPrimes onePrimeOnList) ∧
      parallelizeCollectionReturnOne onePrimeOnList
        (searchProductOfTwoPrimes : List Nat → Except String (Option (Nat × Nat))) 4 4 =
        some (.ok (some (7, 11))) :=
  ⟨(find_one_eq_single_threaded onePrimeOnList searchProductOfTwoPrimes
      (fun val => (isProductOfTwoPrimes val).isSome)
      (fun val => (isProductOfTwoPrimes val).getD (0, 0)) 4 4 (by decide)
      searchProductOfTwoPrimes_eq).1,
    (find_one_eq_single_threaded onePrimeOnList searchProductOfTwoPrimes
      (fun val => (isProductOfTwoPrimes val).isSome)
      (fun val => (isProductOfTwoPrimes val).getD (0, 0)) 4 4 (by decide)
      searchProductOfTwoPrimes_eq).2.trans
      (congrArg (fun found => some (Except.ok found))
        (by decide :
          (onePrimeOnList.find? (fun val => (isProductOfTwoPrimes val).isSome)).map
            (fun val => (isProductOfTwoPrimes val).getD (0, 0)) = some (7, 11)))⟩

/-- C4 (find-one positional tie-break).  When chunk planning returned at least one future
and every chunk task returned (`rs` are the returned optionals, in submission order),
`parallelizeCollectionReturnOne` returns the value of the lowest-positioned chunk that
returned a present value, and returns absent exactly when every chunk returned absent. -/
theorem find_one_positional_tie_break {α ε R : Type} (collection : List α)
    (task : List α → Except ε (Option R)) (M T : Nat)
    (futures : List (ChunkFuture ε (Option R))) (rs : List (Option R))
    (hsplit : splitChunksWithFutures collection task M T = some futures)
    (hne : futures ≠ []) (hok : futures.map ChunkFuture.get = rs.map Except.ok) :
    ∃ res, parallelizeCollectionReturnOne collection task M T = some (.ok res) ∧
      (∀ (i : Nat) (v : R), rs[i]? = some (some v) →
        (∀ j, j < i → rs[j]? = some none) → res = some v) ∧
      (res = none ↔ ∀ r ∈ rs, r = none) := by
  refine ⟨rs.findSome? id, ?_, ?_, ?_⟩
  · rw [returnOne_of_futures collection task M T futures hsplit hne,
      gatherOne_of_ok futures rs hok none, Option.none_or]
  · intro i v hi hbefore
    exact findSome?_id_of_first rs i v hi hbefore
  · simp [List.findSome?_eq_none_iff]

/-- Witness of C4: eight elements on two workers; both chunks return a present value and
the value of the first chunk is returned. -/
theorem find_one_positional_tie_break_witness :
    ∃ res, parallelizeCollectionReturnOne (List.range 8)
        (fun xs => (Except.ok (xs.find? (fun x => decide (2 ≤ x))) :
          Except String (Option Nat))) 4 2 = some (.ok res) ∧
      (∀ (i : Nat) (v : Nat), [some 2, some 4][i]? = some (some v) →
        (∀ j, j < i → [some 2, some 4][j]? = some none) → res = some v) ∧
      (res = none ↔ ∀ r ∈ [some 2, some 4], r = none) :=
  find_one_positional_tie_break (List.range 8)
    (fun xs => Except.ok (xs.find? (fun x => decide (2 ≤ x)))) 4 2
    [⟨0, 4, .ok (some 2)⟩, ⟨4, 8, .ok (some 4)⟩] [some 2, some 4] rfl (by simp) rfl

/-- C5 (collect-many concatenation).  With `count = 0`, at least one future and every
chunk task returning (`rs` are the returned sequences, in submission order, fewer than
`2 ^ 31 - 1` elements in total), `parallelizeCollectionReturnMany` returns
`r_0 ++ r_1 ++ ... ++ r_(k-1)`. -/
theorem collect_many_concatenation {α ε β : Type} (collection : List α)
    (task : List α → Except ε (List β)) (M T : Nat)
    (futures : List (ChunkFuture ε (List β))) (rs : List (List β))
    (hsplit : splitChunksWithFutures collection task M T = some futures)
    (hne : futures ≠ []) (hok : futures.map ChunkFuture.get = rs.map Except.ok)
    (hlen : rs.flatten.length < 2 ^ 31 - 1) :
    parallelizeCollectionReturnMany collection task 0 M T = some (.ok rs.flatten) := by
  rw [returnMany_of_ok collection task 0 M T futures rs hsplit hne hok]
  simp only [if_true, toSizeT_INT_MAX]
  rw [List.take_of_length_le (by omega)]

/-- Witness of C5: ten elements on four workers, chunks of widths 4, 4 and 2. -/
theorem collect_many_concatenation_witness :
    parallelizeCollectionReturnMany (List.range 10)
        (fun xs => (Except.ok (xs.map (fun x => 10 * x)) : Except String (List Nat)))
        0 2 4 =
      some (.ok [[0, 10, 20, 30], [40, 50, 60, 70], [80, 90]].flatten) :=
  collect_many_concatenation (List.range 10) (fun xs => Except.ok (xs.map (fun x => 10 * x)))
    2 4 [⟨0, 4, .ok [0, 10, 20, 30]⟩, ⟨4, 8, .ok [40, 50, 60, 70]⟩, ⟨8, 10, .ok [80, 90]⟩]
    [[0, 10, 20, 30], [40, 50, 60, 70], [80, 90]] rfl (by simp) rfl (by decide)

/-- C6 (collect-many truncation is a prefix).  With `count = c > 0`, at least one future
and every chunk task returning (`rs` are the returned sequences, `n` their total
length), `parallelizeCollectionReturnMany` returns the first `min c n` elements of
`r_0 ++ ... ++ r_(k-1)`; once the first `k` chunks hold `c` elements the result is made of
their elements only. -/
theorem collect_many_truncation_prefix {α ε β : Type} (collection : List α)
    (task : List α → Except ε (List β)) (c : Int) (M T : Nat)
    (futures : List (ChunkFuture ε (List β))) (rs : List (List β))
    (hc : 0 < c) (hmax : c ≤ INT_MAX)
    (hsplit : splitChunksWithFutures collection task M T = some futures)
    (hne : futures ≠ []) (hok : futures.map ChunkFuture.get = rs.map Except.ok) :
    parallelizeCollectionReturnMany collection task c M T =
        some (.ok (rs.flatten.take (min c.toNat rs.flatten.length))) ∧
      ∀ k, c.toNat ≤ (rs.take k).flatten.length →
        parallelizeCollectionReturnMany collection task c M T =
          some (.ok ((rs.take k).flatten.take c.toNat)) := by
  have hcap : toSizeT (if c = 0 then INT_MAX else c) = c.toNat := by
    rw [if_neg (by omega)]
    exact toSizeT_of_pos (by omega) (by unfold INT_MAX at hmax; omega)
  have hres := returnMany_of_ok collection task c M T futures rs hsplit hne hok
  rw [hcap] at hres
  refine ⟨?_, fun k hk => ?_⟩
  · rw [hres, ← List.take_take, List.take_length]
  · rw [hres]
    conv_lhs => rw [← List.take_append_drop k rs, List.flatten_append]
    rw [List.take_append_of_le_length hk]

/-- Witness of C6: ten elements on four workers with `count = 5`; the first two chunks
already hold five elements. -/
theorem collect_many_truncation_prefix_witness :
    parallelizeCollectionReturnMany (List.range 10)
        (fun xs => (Except.ok (xs.map (fun x => 10 * x)) : Except String (List Nat)))
        5 2 4 =
        some (.ok ([[0, 10, 20, 30], [40, 50, 60, 70], [80, 90]].flatten.take
          (min (5 : Int).toNat [[0, 10, 20, 30], [40, 50, 60, 70], [80, 90]].flatten.length))) ∧
      ∀ k, (5 : Int).toNat ≤
          ([[0, 10, 20, 30], [40, 50, 60, 70], [80, 90]].take k).flatten.length →
        parallelizeCollectionReturnMany (List.range 10)
          (fun xs => (Except.ok (xs.map (fun x => 10 * x)) : Except String (List Nat)))
          5 2 4 =
          some (.ok (([[0, 10, 20, 30], [40, 50, 60, 70], [80, 90]].take k).flatten.take
            (5 : Int).toNat)) :=
  collect_many_truncation_prefix (List.range 10)
    (fun xs => Except.ok (xs.map (fun x => 10 * x))) 5 2 4
    [⟨0, 4, .ok [0, 10, 20, 30]⟩, ⟨4, 8, .ok [40, 50, 60, 70]⟩, ⟨8, 10, .ok [80, 90]⟩]
    [[0, 10, 20, 30], [40, 50, 60, 70], [80, 90]] (by decide) (by decide) rfl (by simp) rfl

/-- C7 on the declined path: three elements on four workers with the default minimum chunk
size and `count = 1`.  Planning is declined (`3 / 4 < 4`) and the call returns the three
elements the task returns; `count` is not applied. -/
theorem collect_many_cap_not_applied_when_declined :
    splitChunksWithFutures [1, 2, 3]
        (fun xs => (Except.ok xs : Except String (List Nat))) 4 4 = some [] ∧
      parallelizeCollectionReturnMany [1, 2, 3]
        (fun xs => (Except.ok xs : Except String (List Nat))) 1 4 4 =
        some (.ok [1, 2, 3]) ∧
      ¬ ([1, 2, 3] : List Nat).length ≤ 1 :=
  ⟨rfl, rfl, by decide⟩

/-- C8 (decline threshold).  On a pool of `T >= 1` workers with `S / T < M` or `T <= 1`,
`splitChunksWithFutures` returns no future (nothing was handed to `enqueueWithResult`)
and both strategies return the value of the task applied to the whole collection. -/
theorem decline_threshold {α ε R β : Type} (collection : List α)
    (taskOne : List α → Except ε (Option R)) (taskMany : List α → Except ε (List β))
    (count : Int) (M T : Nat) (hT : 1 ≤ T)
    (hdecl : collection.length / T < M ∨ T ≤ 1) :
    splitChunksWithFutures collection taskOne M T = some [] ∧
      splitChunksWithFutures collection taskMany M T = some [] ∧
      parallelizeCollectionReturnOne collection taskOne M T = some (taskOne collection) ∧
      parallelizeCollectionReturnMany collection taskMany count M T =
        some (taskMany collection) :=
  ⟨splitChunksWithFutures_declined collection taskOne M T hT hdecl,
    splitChunksWithFutures_declined collection taskMany M T hT hdecl,
    returnOne_of_no_futures collection taskOne M T
      (splitChunksWithFutures_declined collection taskOne M T hT hdecl),
    returnMany_of_no_futures collection taskMany count M T
      (splitChunksWithFutures_declined collection taskMany M T hT hdecl)⟩

/-- Witness of C8: seven elements on four workers with minimum chunk size four. -/
theorem decline_threshold_witness :
    splitChunksWithFutures (List.range 7)
        (fun xs => (Except.ok xs.head? : Except String (Option Nat))) 4 4 = some [] ∧
      splitChunksWithFutures (List.range 7)
        (fun xs => (Except.ok xs : Except String (List Nat))) 4 4 = some [] ∧
      parallelizeCollectionReturnOne (List.range 7)
        (fun xs => (Except.ok xs.head? : Except String (Option Nat))) 4 4 =
        some (Except.ok (List.range 7).head?) ∧
      parallelizeCollectionReturnMany (List.range 7)
        (fun xs => (Except.ok xs : Except String (List Nat))) 0 4 4 =
        some (Except.ok (List.range 7)) :=
  decline_threshold (List.range 7) (fun xs => Except.ok xs.head?) (fun xs => Except.ok xs)
    0 4 4 (by decide) (Or.inl (by decide))

/-- C9, as stated, fails: ten elements on four workers with minimum chunk size two give
the ranges 0..4, 4..8 and 8..10, so the first chunk has four elements, not `10 / 4 = 2`,
and the last has two, not `10 / 4 + 10 % 4 = 4`. -/
theorem chunk_sizes_counterexample :
    ∃ futures, splitChunksWithFutures (List.range 10)
        (fun xs => (Except.ok xs : Except String (List Nat))) 2 4 = some futures ∧
      futures.map (fun f => (f.chunkStart, f.chunkEnd)) = [(0, 4), (4, 8), (8, 10)] ∧
      ¬ (∀ (i : Nat) (f : ChunkFuture String (List Nat)), futures[i]? = some f →
          i + 1 < futures.length → f.chunkEnd - f.chunkStart = (List.range 10).length / 4) ∧
      ¬ (∀ f, futures.getLast? = some f → f.chunkEnd - f.chunkStart =
          (List.range 10).length / 4 + (List.range 10).length % 4) := by
  refine ⟨_, rfl, rfl, fun h => ?_, fun h => ?_⟩
  · have := h 0 _ rfl (by decide)
    revert this
    decide
  · have := h _ rfl
    revert this
    decide

/-- C9, amended.  When planning is not declined (`T >= 2`, `S / T >= M`), every chunk but
the last has exactly `S / T + S % T` elements and the last chunk has at least one and at
most `S / T + S % T` elements. -/
theorem chunk_sizes {α ε R : Type} (collection : List α) (task : List α → Except ε R)
    (M T : Nat) (hT : 2 ≤ T) (hM : M ≤ collection.length / T) :
    ∃ futures, splitChunksWithFutures collection task M T = some futures ∧
      (∀ (i : Nat) (f : ChunkFuture ε R), futures[i]? = some f → i + 1 < futures.length →
        f.chunkEnd - f.chunkStart = collection.length / T + collection.length % T) ∧
      (∀ f, futures.getLast? = some f →
        1 ≤ f.chunkEnd - f.chunkStart ∧
        f.chunkEnd - f.chunkStart ≤ collection.length / T + collection.length % T) := by
  refine ⟨_, splitChunksWithFutures_eq_loop collection task M T hT hM, ?_, ?_⟩
  · intro i f hf hlen
    exact (splitLoop_widths collection task _ T 0 (Nat.zero_le _) i f hf).2.2 hlen
  · intro f hf
    rw [List.getLast?_eq_getElem?] at hf
    obtain ⟨h1, h2, _⟩ := splitLoop_widths collection task _ T 0 (Nat.zero_le _) _ f hf
    have hpos : 0 < collection.length / T + collection.length % T :=
      step_pos (by omega)
    have hmin1 := min_le_left (collection.length / T + collection.length % T)
      (collection.length - f.chunkStart)
    have hmin2 : 0 < min (collection.length / T + collection.length % T)
        (collection.length - f.chunkStart) := by
      rw [lt_min_iff]; omega
    omega

/-- Witness of C9, amended: ten elements on four workers with minimum chunk size two. -/
theorem chunk_sizes_witness :
    ∃ futures, splitChunksWithFutures (List.range 10)
        (fun xs => (Except.ok xs : Except String (List Nat))) 2 4 = some futures ∧
      (∀ (i : Nat) (f : ChunkFuture String (List Nat)), futures[i]? = some f →
        i + 1 < futures.length →
        f.chunkEnd - f.chunkStart = (List.range 10).length / 4 + (List.range 10).length % 4) ∧
      (∀ f, futures.getLast? = some f →
        1 ≤ f.chunkEnd - f.chunkStart ∧
        f.chunkEnd - f.chunkStart ≤
          (List.range 10).length / 4 + (List.range 10).length % 4) :=
  chunk_sizes (List.range 10) (fun xs => Except.ok xs) 2 4 (by decide) (by decide)

/-- C10, as stated, fails: on two workers with minimum chunk size four and the collection
0..7, the deterministic collect-many task "the range reversed" and the deterministic
find-one task "the last element of the range" give results that differ from the
single-threaded ones. -/
theorem result_equivalence_counterexample :
    parallelizeCollectionReturnMany (List.range 8)
        (fun xs => (Except.ok xs.reverse : Except String (List Nat))) 0 4 2 =
        some (.ok [3, 2, 1, 0, 7, 6, 5, 4]) ∧
      (fun xs => (Except.ok xs.reverse : Except String (List Nat))) (List.range 8) =
        .ok [7, 6, 5, 4, 3, 2, 1, 0] ∧
      ([3, 2, 1, 0, 7, 6, 5, 4] : List Nat) ≠ [7, 6, 5, 4, 3, 2, 1, 0] ∧
      parallelizeCollectionReturnOne (List.range 8)
        (fun xs => (Except.ok xs.getLast? : Except String (Option Nat))) 4 2 =
        some (.ok (some 3)) ∧
      (fun xs => (Except.ok xs.getLast? : Except String (Option Nat))) (List.range 8) =
        .ok (some 7) ∧
      (some 3 : Option Nat) ≠ some 7 :=
  ⟨rfl, rfl, by decide, rfl, rfl, by decide⟩

/-- C10, amended.  On any pool of `T >= 1` workers and for any minimum chunk size: a
find-one task whose result over `xs ++ ys` is its result over `xs` when present and its
result over `ys` otherwise makes `parallelizeCollectionReturnOne` return the task's
result over the whole collection; a collect-many task whose result over `xs ++ ys` is the
concatenation of its results over `xs` and `ys` makes `parallelizeCollectionReturnMany`
return the task's whole sequence when `count = 0` (fewer than `2 ^ 31 - 1` elements) and,
when `count = c > 0` and at least one chunk was submitted, its first `min c n` elements. -/
theorem result_equivalence_distributive {α ε R β : Type} (collection : List α)
    (M T : Nat) (hT : 1 ≤ T)
    (taskOne : List α → Except ε (Option R)) (one : List α → Option R)
    (hone : ∀ xs, taskOne xs = .ok (one xs))
    (honeHom : ∀ xs ys, one (xs ++ ys) = (one xs).or (one ys))
    (taskMany : List α → Except ε (List β)) (many : List α → List β)
    (hmany : ∀ xs, taskMany xs = .ok (many xs))
    (hmanyHom : ∀ xs ys, many (xs ++ ys) = many xs ++ many ys) :
    parallelizeCollectionReturnOne collection taskOne M T = some (taskOne collection) ∧
      ((many collection).length < 2 ^ 31 - 1 →
        parallelizeCollectionReturnMany collection taskMany 0 M T =
          some (taskMany collection)) ∧
      (∀ c : Int, 0 < c → c ≤ INT_MAX →
        ∃ futures, splitChunksWithFutures collection taskMany M T = some futures ∧
          (futures ≠ [] →
            parallelizeCollectionReturnMany collection taskMany c M T =
              some (.ok ((many collection).take
                (min c.toNat (many collection).length))))) := by
  refine ⟨returnOne_of_or_hom collection taskOne one hone honeHom M T hT, ?_, ?_⟩
  · intro hlen
    obtain ⟨fs, _, h1, h2⟩ :=
      returnMany_of_append_hom collection taskMany many hmany hmanyHom 0 M T hT
    rw [hmany]
    by_cases hnil : fs = []
    · exact h1 hnil
    · rw [h2 hnil]
      simp only [if_true, toSizeT_INT_MAX]
      rw [List.take_of_length_le (by omega)]
  · intro c hc hmax
    obtain ⟨fs, hsplit, _, h2⟩ :=
      returnMany_of_append_hom collection taskMany many hmany hmanyHom c M T hT
    refine ⟨fs, hsplit, fun hne => ?_⟩
    rw [h2 hne, if_neg (by omega),
      toSizeT_of_pos (by omega) (by unfold INT_MAX at hmax; omega), ← List.take_take,
      List.take_length]

/-- Witness of C10, amended: ten elements on four workers with minimum chunk size two, the
find-one task "first element that is at least five" and the collect-many task "ten times
each element". -/
theorem result_equivalence_distributive_witness :
    parallelizeCollectionReturnOne (List.range 10)
        (fun xs => (Except.ok (xs.find? (fun x => decide (5 ≤ x))) :
          Except String (Option Nat))) 2 4 =
        some (.ok ((List.range 10).find? (fun x => decide (5 ≤ x)))) ∧
      (((List.range 10).map (fun x => 10 * x)).length < 2 ^ 31 - 1 →
        parallelizeCollectionReturnMany (List.range 10)
          (fun xs => (Except.ok (xs.map (fun x => 10 * x)) : Except String (List Nat)))
          0 2 4 = some (.ok ((List.range 10).map (fun x => 10 * x)))) ∧
      (∀ c : Int, 0 < c → c ≤ INT_MAX →
        ∃ futures, splitChunksWithFutures (List.range 10)
            (fun xs => (Except.ok (xs.map (fun x => 10 * x)) : Except String (List Nat)))
            2 4 = some futures ∧
          (futures ≠ [] →
            parallelizeCollectionReturnMany (List.range 10)
              (fun xs => (Except.ok (xs.map (fun x => 10 * x)) : Except String (List Nat)))
              c 2 4 =
              some (.ok (((List.range 10).map (fun x => 10 * x)).take
                (min c.toNat ((List.range 10).map (fun x => 10 * x)).length))))) :=
  result_equivalence_distributive (List.range 10) 2 4 (by decide)
    (fun xs => Except.ok (xs.find? (fun x => decide (5 ≤ x))))
    (fun xs => xs.find? (fun x => decide (5 ≤ x))) (fun _ => rfl)
    (fun _ _ => List.find?_append)
    (fun xs => Except.ok (xs.map (fun x => 10 * x))) (List.map (fun x => 10 * x))
    (fun _ => rfl) (fun _ _ => List.map_append _ _ _)

/-! ## Failures and awaited futures -/

section failures

variable {ε R β : Type}

theorem gatherOne_error_at (fs : List (ChunkFuture ε (Option R))) (i : Nat)
    (f : ChunkFuture ε (Option R)) (e : ε) (acc : Option R)
    (hi : fs[i]? = some f) (hf : f.get = .error e)
    (hbefore : ∀ (j : Nat) (g : ChunkFuture ε (Option R)), j < i → fs[j]? = some g →
      ∃ r, g.get = .ok r) :
    gatherOne fs acc = .error e := by
  induction fs generalizing i acc with
  | nil => simp at hi
  | cons a fs ih =>
    cases i with
    | zero =>
      simp only [List.getElem?_cons_zero, Option.some.injEq] at hi
      subst hi
      unfold gatherOne
      simp only [hf]
    | succ i =>
      obtain ⟨r, hr⟩ := hbefore 0 a (Nat.succ_pos i) (by simp)
      have hrest : ∀ acc2, gatherOne fs acc2 = .error e := fun acc2 =>
        ih i acc2 (by simpa using hi)
          (fun j g hj hg => hbefore (j + 1) g (by omega) (by simpa using hg))
      unfold gatherOne
      simp only [hr]
      split <;> exact hrest _

theorem gatherMany_error_at (count : Int) (fs : List (ChunkFuture ε (List β))) (i : Nat)
    (f : ChunkFuture ε (List β)) (e : ε) (acc : List β) (pending : Bool)
    (hi : fs[i]? = some f) (hf : f.get = .error e)
    (hbefore : ∀ (j : Nat) (g : ChunkFuture ε (List β)), j < i → fs[j]? = some g →
      ∃ r, g.get = .ok r) :
    gatherMany count fs acc pending = .error e := by
  induction fs generalizing i acc pending with
  | nil => simp at hi
  | cons a fs ih =>
    cases i with
    | zero =>
      simp only [List.getElem?_cons_zero, Option.some.injEq] at hi
      subst hi
      unfold gatherMany
      simp only [hf]
    | succ i =>
      obtain ⟨r, hr⟩ := hbefore 0 a (Nat.succ_pos i) (by simp)
      have hrest : ∀ acc2 pending2, gatherMany count fs acc2 pending2 = .error e :=
        fun acc2 pending2 =>
          ih i acc2 pending2 (by simpa using hi)
            (fun j g hj hg => hbefore (j + 1) g (by omega) (by simpa using hg))
      unfold gatherMany
      simp only [hr]
      split
      · split <;> exact hrest _ _
      · exact hrest _ _

end failures

/-- C11 (failure propagation).  On the non-declined path of both strategies, when the
future at position `i` (find-one) or `k` (collect-many) holds a failure and every future
before it holds a value, the call raises exactly that failure and returns no value,
whatever the later futures hold. -/
theorem failure_propagation {α ε R β : Type} (collection : List α)
    (taskOne : List α → Except ε (Option R)) (taskMany : List α → Except ε (List β))
    (count : Int) (M T : Nat)
    (futuresOne : List (ChunkFuture ε (Option R)))
    (futuresMany : List (ChunkFuture ε (List β)))
    (i k : Nat) (f : ChunkFuture ε (Option R)) (g : ChunkFuture ε (List β)) (e e2 : ε)
    (hsplitOne : splitChunksWithFutures collection taskOne M T = some futuresOne)
    (hsplitMany : splitChunksWithFutures collection taskMany M T = some futuresMany)
    (hi : futuresOne[i]? = some f) (hf : f.get = .error e)
    (hbeforeOne : ∀ (j : Nat) (h : ChunkFuture ε (Option R)), j < i →
      futuresOne[j]? = some h → ∃ r, h.get = .ok r)
    (hk : futuresMany[k]? = some g) (hg : g.get = .error e2)
    (hbeforeMany : ∀ (j : Nat) (h : ChunkFuture ε (List β)), j < k →
      futuresMany[j]? = some h → ∃ r, h.get = .ok r) :
    parallelizeCollectionReturnOne collection taskOne M T = some (.error e) ∧
      parallelizeCollectionReturnMany collection taskMany count M T = some (.error e2) := by
  have hneOne : futuresOne ≠ [] := by
    intro h
    subst h
    simp at hi
  have hneMany : futuresMany ≠ [] := by
    intro h
    subst h
    simp at hk
  constructor
  · rw [returnOne_of_futures collection taskOne M T futuresOne hsplitOne hneOne,
      gatherOne_error_at futuresOne i f e none hi hf hbeforeOne]
  · rw [returnMany_of_futures collection taskMany count M T futuresMany hsplitMany hneMany,
      gatherMany_error_at _ futuresMany k g e2 [] true hk hg hbeforeMany]

/-- Witness of C11: ten elements on four workers; the first chunk returns, the second and
the third raise the first element of their range, and both calls raise `4`. -/
theorem failure_propagation_witness :
    parallelizeCollectionReturnOne (List.range 10)
        (fun xs => if xs.headD 0 < 4 then (Except.ok none : Except Nat (Option Nat))
          else .error (xs.headD 0)) 2 4 = some (.error 4) ∧
      parallelizeCollectionReturnMany (List.range 10)
        (fun xs => if xs.headD 0 < 4 then (Except.ok xs : Except Nat (List Nat))
          else .error (xs.headD 0)) 0 2 4 = some (.error 4) :=
  failure_propagation (List.range 10)
    (fun xs => if xs.headD 0 < 4 then Except.ok none else .error (xs.headD 0))
    (fun xs => if xs.headD 0 < 4 then Except.ok xs else .error (xs.headD 0)) 0 2 4
    [⟨0, 4, .ok none⟩, ⟨4, 8, .error 4⟩, ⟨8, 10, .error 8⟩]
    [⟨0, 4, .ok [0, 1, 2, 3]⟩, ⟨4, 8, .error 4⟩, ⟨8, 10, .error 8⟩]
    1 1 ⟨4, 8, .error 4⟩ ⟨4, 8, .error 4⟩ 4 4 rfl rfl rfl rfl
    (fun j h hj hh => by
      have hj0 : j = 0 := by omega
      subst hj0
      simp only [List.getElem?_cons_zero, Option.some.injEq] at hh
      subst hh
      exact ⟨none, rfl⟩)
    rfl rfl
    (fun j h hj hh => by
      have hj0 : j = 0 := by omega
      subst hj0
      simp only [List.getElem?_cons_zero, Option.some.injEq] at hh
      subst hh
      exact ⟨[0, 1, 2, 3], rfl⟩)

/-- C12, as stated, fails: eight elements on two workers with minimum chunk size four; the
first chunk returns the present value `0`, the second raises `4`, and the call raises `4`
instead of returning `0`. -/
theorem find_one_early_exit_counterexample :
    splitChunksWithFutures (List.range 8)
        (fun xs => if xs.headD 0 < 4 then (Except.ok xs.head? : Except Nat (Option Nat))
          else .error (xs.headD 0)) 4 2 =
        some [⟨0, 4, .ok (some 0)⟩, ⟨4, 8, .error 4⟩] ∧
      parallelizeCollectionReturnOne (List.range 8)
        (fun xs => if xs.headD 0 < 4 then (Except.ok xs.head? : Except Nat (Option Nat))
          else .error (xs.headD 0)) 4 2 = some (.error 4) ∧
      parallelizeCollectionReturnOne (List.range 8)
        (fun xs => if xs.headD 0 < 4 then (Except.ok xs.head? : Except Nat (Option Nat))
          else .error (xs.headD 0)) 4 2 ≠ some (.ok (some 0)) := by
  refine ⟨rfl, rfl, fun h => ?_⟩
  have h2 : (some (Except.error 4) : Option (Except Nat (Option Nat))) =
      some (.ok (some 0)) := h
  simp at h2

/-- C12, amended.  The aggregation of `parallelizeCollectionReturnOne` does not stop at the
first present value: when the future at position `i` holds a present value, the future
at a later position `k` holds a failure and every future before `k` holds a value, the
call raises that failure and returns no value. -/
theorem find_one_later_failure_observed {α ε R : Type} (collection : List α)
    (task : List α → Except ε (Option R)) (M T : Nat)
    (futures : List (ChunkFuture ε (Option R))) (i k : Nat)
    (f g : ChunkFuture ε (Option R)) (v : R) (e : ε)
    (hsplit : splitChunksWithFutures collection task M T = some futures)
    (hik : i < k) (hi : futures[i]? = some f) (hf : f.get = .ok (some v))
    (hk : futures[k]? = some g) (hg : g.get = .error e)
    (hbefore : ∀ (j : Nat) (h : ChunkFuture ε (Option R)), j < k →
      futures[j]? = some h → ∃ r, h.get = .ok r) :
    parallelizeCollectionReturnOne collection task M T = some (.error e) := by
  have hne : futures ≠ [] := by
    intro h
    subst h
    simp at hk
  rw [returnOne_of_futures collection task M T futures hsplit hne,
    gatherOne_error_at futures k g e none hk hg hbefore]

/-- Witness of C12, amended: eight elements on two workers; the first chunk returns `0`,
the second raises `4`. -/
theorem find_one_later_failure_observed_witness :
    parallelizeCollectionReturnOne (List.range 8)
        (fun xs => if xs.headD 0 < 4 then (Except.ok xs.head? : Except Nat (Option Nat))
          else .error (xs.headD 0)) 4 2 = some (.error 4) :=
  find_one_later_failure_observed (List.range 8)
    (fun xs => if xs.headD 0 < 4 then Except.ok xs.head? else .error (xs.headD 0)) 4 2
    [⟨0, 4, .ok (some 0)⟩, ⟨4, 8, .error 4⟩] 0 1 ⟨0, 4, .ok (some 0)⟩ ⟨4, 8, .error 4⟩
    0 4 rfl (by decide) rfl rfl rfl rfl
    (fun j h hj hh => by
      have hj0 : j = 0 := by omega
      subst hj0
      simp only [List.getElem?_cons_zero, Option.some.injEq] at hh
      subst hh
      exact ⟨some 0, rfl⟩)

/-- C17 on a pool without workers: `totalSize / threadCnt` is evaluated with
`threadCnt = 0` before the guard `threadCnt <= 1` is reached, so chunk planning and both
strategies have no defined result. -/
theorem zero_workers_divides_by_zero {α ε R β : Type} (collection : List α)
    (taskOne : List α → Except ε (Option R)) (taskMany : List α → Except ε (List β))
    (count : Int) (M : Nat) :
    splitChunksWithFutures collection taskOne M 0 = none ∧
      parallelizeCollectionReturnOne collection taskOne M 0 = none ∧
      parallelizeCollectionReturnMany collection taskMany count M 0 = none := by
  refine ⟨rfl, rfl, rfl⟩

section widths

variable {α ε R : Type}

theorem splitLoop_start_at (collection : List α) (task : List α → Except ε R)
    (step n s : Nat) (hs : s ≤ collection.length) :
    ∀ (i : Nat) (f : ChunkFuture ε R),
      (splitLoop collection task step n s)[i]? = some f → f.chunkStart = s + i * step := by
  induction n generalizing s with
  | zero => simp [splitLoop]
  | succ n ih =>
    intro i f hf
    unfold splitLoop at hf
    split at hf
    · simp at hf
    · next h =>
      have hle : s + min step (collection.length - s) ≤ collection.length := by
        have := min_le_right step (collection.length - s)
        omega
      cases i with
      | zero =>
        simp only [List.getElem?_cons_zero, Option.some.injEq] at hf
        subst hf
        simp
      | succ i =>
        simp only [List.getElem?_cons_succ] at hf
        have hstart := ih _ hle i f hf
        rcases le_total step (collection.length - s) with h1 | h1
        · rw [min_eq_left h1] at hstart
          rw [hstart, Nat.succ_mul]
          omega
        · exfalso
          rw [min_eq_right h1] at hf
          have hend : s + (collection.length - s) = collection.length := by omega
          simp [hend, splitLoop_at_end] at hf

theorem splitLoop_length_eq (collection : List α) (task : List α → Except ε R)
    (step : Nat) (hstep : 0 < step) (n s : Nat) (hs : s ≤ collection.length)
    (hn : collection.length - s ≤ n * step) :
    (splitLoop collection task step n s).length =
      (collection.length - s + step - 1) / step := by
  induction n generalizing s with
  | zero =>
    have h0 : collection.length - s = 0 := by omega
    rw [h0]
    simp only [splitLoop, List.length_nil, Nat.zero_add]
    exact (Nat.div_eq_of_lt (by omega)).symm
  | succ n ih =>
    unfold splitLoop
    split
    · next h =>
      have h0 : collection.length - s = 0 := by omega
      rw [h0]
      simp only [List.length_nil, Nat.zero_add]
      exact (Nat.div_eq_of_lt (by omega)).symm
    · next h =>
      have hlt : s < collection.length := lt_of_le_of_ne hs h
      have hmul : (n + 1) * step = n * step + step := by ring
      simp only [List.length_cons]
      rcases le_total step (collection.length - s) with h1 | h1
      · rw [min_eq_left h1, ih (s + step) (by omega) (by omega)]
        have hsum : collection.length - s + step - 1 =
            (collection.length - (s + step) + step - 1) + step := by omega
        rw [hsum, Nat.add_div_right _ hstep]
      · rw [min_eq_right h1]
        have hend : s + (collection.length - s) = collection.length := by omega
        rw [hend, splitLoop_at_end]
        simp only [List.length_nil, Nat.zero_add]
        exact (Nat.div_eq_of_lt_le (by omega) (by omega)).symm

end widths

/-- C20 (actual chunk widths).  With `S >= 1`, `T >= 2`, `S / T >= M` and
`w = S / T + S % T`, `splitChunksWithFutures` returns exactly `ceil (S / w)` futures;
every chunk but the last has `w` elements and the last has `S - w * (k - 1)` elements,
between `1` and `w`; every chunk is non-empty, `k <= T`, and there are `T` chunks of
`S / T` elements each exactly when `S % T = 0`. -/
theorem actual_chunk_widths {α ε R : Type} (collection : List α)
    (task : List α → Except ε R) (M T : Nat) (hS : 1 ≤ collection.length) (hT : 2 ≤ T)
    (hM : M ≤ collection.length / T) :
    ∃ futures, splitChunksWithFutures collection task M T = some futures ∧
      futures.length =
        (collection.length + (collection.length / T + collection.length % T) - 1) /
          (collection.length / T + collection.length % T) ∧
      (∀ (i : Nat) (f : ChunkFuture ε R), futures[i]? = some f → i + 1 < futures.length →
        f.chunkEnd - f.chunkStart = collection.length / T + collection.length % T) ∧
      (∀ f, futures.getLast? = some f →
        f.chunkEnd - f.chunkStart =
          collection.length -
            (collection.length / T + collection.length % T) * (futures.length - 1) ∧
        1 ≤ f.chunkEnd - f.chunkStart ∧
        f.chunkEnd - f.chunkStart ≤ collection.length / T + collection.length % T) ∧
      (∀ f ∈ futures, f.chunkStart < f.chunkEnd) ∧
      futures.length ≤ T ∧
      ((futures.length = T ∧
          ∀ f ∈ futures, f.chunkEnd - f.chunkStart = collection.length / T) ↔
        collection.length % T = 0) := by
  have hw : 0 < collection.length / T + collection.length % T := step_pos hS
  have hcover := size_le_threads_mul_step collection.length T (by omega)
  have htiles := splitLoop_tiles collection task _ hw T 0 (Nat.zero_le _)
    (by simpa using hcover)
  have hlen := splitLoop_length_eq collection task _ hw T 0 (Nat.zero_le _)
    (by simpa using hcover)
  have hwid := splitLoop_widths collection task
    (collection.length / T + collection.length % T) T 0 (Nat.zero_le _)
  have hstart := splitLoop_start_at collection task
    (collection.length / T + collection.length % T) T 0 (Nat.zero_le _)
  have hdm := Nat.div_add_mod collection.length T
  simp only [Nat.sub_zero, Nat.zero_add] at hlen hstart
  generalize hfs : splitLoop collection task
    (collection.length / T + collection.length % T) T 0 = fs at htiles hlen hwid hstart
  have hlenT : fs.length ≤ T := by
    rw [← hfs]
    exact splitLoop_length_le _ _ _ _ _
  have hlastIdx : ∀ f, fs.getLast? = some f →
      f.chunkStart = (fs.length - 1) * (collection.length / T + collection.length % T) ∧
      f.chunkEnd = collection.length := by
    intro f hf
    obtain ⟨g, hg, hgend⟩ := htiles.last_end hS
    rw [hf] at hg
    cases hg
    rw [List.getLast?_eq_getElem?] at hf
    exact ⟨hstart _ f hf, hgend⟩
  refine ⟨fs, by rw [← hfs]; exact splitChunksWithFutures_eq_loop collection task M T hT hM,
    hlen, fun i f hf hi => (hwid i f hf).2.2 hi, ?_, fun f hf => (htiles.start_le_end f hf).1,
    hlenT, ?_⟩
  · intro f hf
    obtain ⟨h1, h2⟩ := hlastIdx f hf
    have hpos := (htiles.start_le_end f
      (List.mem_of_mem_getLast? hf)).1
    rw [List.getLast?_eq_getElem?] at hf
    obtain ⟨_, h4, _⟩ := hwid _ f hf
    have hmin := min_le_left (collection.length / T + collection.length % T)
      (collection.length - f.chunkStart)
    rw [Nat.mul_comm] at h1
    omega
  · constructor
    · rintro ⟨hk, hall⟩
      obtain ⟨f0, hf0, _⟩ := htiles.head_start hS
      have hmem : f0 ∈ fs := List.mem_of_mem_head? hf0
      have h0 : fs[0]? = some f0 := by
        cases fs with
        | nil => simp at hf0
        | cons a l => simpa using hf0
      have hw0 := (hwid 0 f0 h0).2.2 (by omega)
      have := hall f0 hmem
      omega
    · intro hmod
      have hweq : collection.length / T + collection.length % T = collection.length / T := by
        omega
      rw [hweq] at hlen hwid hstart hw
      have hST : T * (collection.length / T) = collection.length := by omega
      have hsucc : (T + 1) * (collection.length / T) =
          T * (collection.length / T) + collection.length / T := by ring
      have hk : fs.length = T := by
        rw [hlen]
        exact Nat.div_eq_of_lt_le (by omega) (by omega)
      refine ⟨hk, fun f hf => ?_⟩
      obtain ⟨i, hi⟩ := List.getElem?_of_mem hf
      have hilt : i < fs.length := by
        by_contra hcon
        rw [List.getElem?_eq_none (by omega)] at hi
        simp at hi
      obtain ⟨h1, h2, h3⟩ := hwid i f hi
      by_cases hnl : i + 1 < fs.length
      · exact h3 hnl
      · have hiT : i + 1 = T := by omega
        have hs := hstart i f hi
        have hmul : (i + 1) * (collection.length / T) =
            i * (collection.length / T) + collection.length / T := by ring
        rw [hiT] at hmul
        have hrem : collection.length - f.chunkStart = collection.length / T := by
          omega
        rw [hrem, min_self] at h2
        omega

/-- Witness of C20: ten elements on four workers with minimum chunk size two give the
three chunks 0..4, 4..8 and 8..10. -/
theorem actual_chunk_widths_witness :
    (∃ futures, splitChunksWithFutures (List.range 10)
        (fun xs => (Except.ok xs : Except String (List Nat))) 2 4 = some futures ∧
      futures.length =
        ((List.range 10).length +
            ((List.range 10).length / 4 + (List.range 10).length % 4) - 1) /
          ((List.range 10).length / 4 + (List.range 10).length % 4) ∧
      (∀ (i : Nat) (f : ChunkFuture String (List Nat)), futures[i]? = some f →
        i + 1 < futures.length →
        f.chunkEnd - f.chunkStart = (List.range 10).length / 4 + (List.range 10).length % 4) ∧
      (∀ f, futures.getLast? = some f →
        f.chunkEnd - f.chunkStart =
          (List.range 10).length -
            ((List.range 10).length / 4 + (List.range 10).length % 4) *
              (futures.length - 1) ∧
        1 ≤ f.chunkEnd - f.chunkStart ∧
        f.chunkEnd - f.chunkStart ≤
          (List.range 10).length / 4 + (List.range 10).length % 4) ∧
      (∀ f ∈ futures, f.chunkStart < f.chunkEnd) ∧
      futures.length ≤ 4 ∧
      ((futures.length = 4 ∧
          ∀ f ∈ futures, f.chunkEnd - f.chunkStart = (List.range 10).length / 4) ↔
        (List.range 10).length % 4 = 0)) ∧
      (splitChunksWithFutures (List.range 10)
        (fun xs => (Except.ok xs : Except String (List Nat))) 2 4).map
        (fun futures => futures.map (fun f => (f.chunkStart, f.chunkEnd))) =
        some [(0, 4), (4, 8), (8, 10)] :=
  ⟨actual_chunk_widths (List.range 10) (fun xs => Except.ok xs) 2 4 (by decide) (by decide)
    (by decide), rfl⟩

/-! ## The worker pool -/

section pool

variable {τ : Type}

theorem workerIteration_nil (workers : Nat) (stop stopSetMeanwhile : Bool) :
    workerIteration (⟨workers, [], stop⟩ : Pool τ) stopSetMeanwhile =
      if stop then .exited else .waiting := by
  cases stop <;> simp [workerIteration]

theorem workerIteration_cons (workers : Nat) (task : τ) (rest : List τ)
    (stop stopSetMeanwhile : Bool) :
    workerIteration ⟨workers, task :: rest, stop⟩ stopSetMeanwhile =
      .dequeued task ⟨workers, rest, stop || stopSetMeanwhile⟩ := by
  simp [workerIteration]

theorem workerIteration_dequeued (pool : Pool τ) (stopSetMeanwhile : Bool) (task : τ)
    (pool2 : Pool τ)
    (h : workerIteration pool stopSetMeanwhile = .dequeued task pool2) :
    pool.tasks = task :: pool2.tasks := by
  obtain ⟨workers, tasks, stop⟩ := pool
  cases tasks with
  | nil =>
    rw [workerIteration_nil] at h
    cases stop <;> simp at h
  | cons a rest =>
    rw [workerIteration_cons] at h
    simp only [WorkerOutcome.dequeued.injEq] at h
    obtain ⟨h1, h2⟩ := h
    subst h1 h2
    rfl

theorem runEvents_invariant (events : List (PoolEvent τ)) (pool : Pool τ)
    (dequeued : List τ) :
    (runEvents events pool dequeued).2 ++ (runEvents events pool dequeued).1.tasks =
      dequeued ++ pool.tasks ++ submittedTasks events := by
  induction events generalizing pool dequeued with
  | nil => simp [runEvents, submittedTasks]
  | cons event events ih =>
    cases event with
    | submitted task =>
      simp only [runEvents, submittedTasks]
      rw [ih]
      simp [enqueue]
    | workerPass stopSetMeanwhile =>
      simp only [runEvents, submittedTasks]
      cases h : workerIteration pool stopSetMeanwhile with
      | waiting => exact ih pool dequeued
      | exited => exact ih pool dequeued
      | undefined => exact ih pool dequeued
      | dequeued task pool2 =>
        simp only
        rw [ih, workerIteration_dequeued pool stopSetMeanwhile task pool2 h]
        simp
    | destroyed =>
      simp only [runEvents, submittedTasks]
      rw [ih]
      simp [destroy]

theorem runEvents_passes_after_stop (n workers : Nat) (tasks dequeued : List τ)
    (stopSetMeanwhile : Bool) :
    runEvents (List.replicate n (PoolEvent.workerPass stopSetMeanwhile))
        ⟨workers, tasks, true⟩ dequeued =
      (⟨workers, tasks.drop n, true⟩, dequeued ++ tasks.take n) := by
  induction n generalizing tasks dequeued with
  | zero => simp [runEvents]
  | succ n ih =>
    cases tasks with
    | nil =>
      simp only [List.replicate_succ, runEvents, workerIteration_nil, if_true]
      rw [ih]
      simp
    | cons task rest =>
      simp only [List.replicate_succ, runEvents, workerIteration_cons, Bool.true_or]
      rw [ih]
      simp

theorem runEvents_append (events later : List (PoolEvent τ)) (pool : Pool τ)
    (dequeued : List τ) :
    runEvents (events ++ later) pool dequeued =
      runEvents later (runEvents events pool dequeued).1
        (runEvents events pool dequeued).2 := by
  induction events generalizing pool dequeued with
  | nil => rfl
  | cons event events ih =>
    cases event with
    | submitted task =>
      simp only [List.cons_append, runEvents]
      exact ih _ _
    | workerPass stopSetMeanwhile =>
      simp only [List.cons_append, runEvents]
      cases workerIteration pool stopSetMeanwhile <;> exact ih _ _
    | destroyed =>
      simp only [List.cons_append, runEvents]
      exact ih _ _

theorem runEvents_workerPass_cons (pool : Pool τ) (dequeued : List τ)
    (stopSetMeanwhile : Bool) (task : τ) (rest : List τ)
    (h : pool.tasks = task :: rest) :
    runEvents [PoolEvent.workerPass stopSetMeanwhile] pool dequeued =
      (⟨pool.workers, rest, pool.stop || stopSetMeanwhile⟩, dequeued ++ [task]) := by
  obtain ⟨workers, tasks, stop⟩ := pool
  simp only at h
  subst h
  simp only [runEvents, workerIteration_cons]

theorem constructLoop_all_spawn (spawns : Nat → Bool) (maxCount : Int)
    (hspawn : ∀ w, spawns w = true) (fuel : Nat) (i : Int) (workers : Nat)
    (hi : i + fuel = maxCount) :
    constructLoop spawns maxCount fuel i workers = .ok (workers + fuel) := by
  induction fuel generalizing i workers with
  | zero => rfl
  | succ fuel ih =>
    unfold constructLoop
    have hlt : i < maxCount := by
      push_cast at hi
      omega
    rw [if_pos hlt, if_pos (hspawn workers), ih (i + 1) (workers + 1)
      (by push_cast at hi ⊢; omega)]
    congr 1
    omega

end pool

/-- C13 (failure capture in `enqueueWithResult`).  `enqueueWithResult` appends one task
to the queue and returns the future of a fresh promise.  Running that task writes the
shared state exactly once, the value of the bound function when it returns and its
failure when it raises; no exception leaves the task, so awaiting the future yields that
outcome and the worker starts its next iteration. -/
theorem failure_capture {ε R : Type}
    (pool : Pool (Promise ε R → Except (Thrown ε) (Promise ε R)))
    (boundTask : Unit → Except ε R) :
    (enqueueWithResult pool boundTask).1.writes = [] ∧
      (enqueueWithResult pool boundTask).2.tasks = pool.tasks ++ [resultTask boundTask] ∧
      ∃ written,
        resultTask boundTask (enqueueWithResult pool boundTask).1 = .ok written ∧
        written.writes =
          [match boundTask () with
            | .ok value => .ok value
            | .error e => .error (.raised e)] ∧
        written.get =
          some (match boundTask () with
            | .ok value => .ok value
            | .error e => .error (.raised e)) ∧
        afterTask (resultTaskRun
          (resultTask boundTask (enqueueWithResult pool boundTask).1)) =
          .nextIteration := by
  refine ⟨rfl, rfl, ?_⟩
  cases h : boundTask () with
  | ok value =>
    refine ⟨⟨[.ok value]⟩, ?_, rfl, rfl, ?_⟩ <;>
      simp [resultTask, enqueueWithResult, h, Promise.set_value, resultTaskRun, afterTask]
  | error e =>
    refine ⟨⟨[.error (.raised e)]⟩, ?_, rfl, rfl, ?_⟩ <;>
      simp [resultTask, enqueueWithResult, h, Promise.set_exception, resultTaskRun,
        afterTask]

/-- C14, as stated, fails: a pool of one worker whose queue holds the task `7` when the
destructor sets `stop`; the next pass of the worker takes `7` out of the queue to run it,
and the worker only exits on the pass after. -/
theorem shutdown_abandons_queued_counterexample :
    workerIteration (destroy (⟨1, [7], false⟩ : Pool Nat)) false =
        .dequeued 7 ⟨1, [], true⟩ ∧
      workerIteration (⟨1, [], true⟩ : Pool Nat) false = .exited ∧
      (runEvents [.destroyed, .workerPass false, .workerPass false]
        (⟨1, [7], false⟩ : Pool Nat) []).2 = [7] :=
  ⟨rfl, rfl, rfl⟩

/-- C14, amended.  Once the destructor has set `stop`, a worker exits only on a pass that
finds the queue empty; while tasks are queued every pass takes the front task out to run
it, so the first `n` passes of the workers dequeue the first `n` tasks that were queued
at that moment, in order. -/
theorem shutdown_drains_queue {τ : Type} (pool : Pool τ) (stopSetMeanwhile : Bool) :
    (workerIteration (destroy pool) stopSetMeanwhile = .exited ↔ pool.tasks = []) ∧
      (∀ task rest, pool.tasks = task :: rest →
        workerIteration (destroy pool) stopSetMeanwhile =
          .dequeued task ⟨pool.workers, rest, true⟩) ∧
      (∀ n, runEvents (List.replicate n (PoolEvent.workerPass stopSetMeanwhile))
          (destroy pool) [] =
        (⟨pool.workers, pool.tasks.drop n, true⟩, pool.tasks.take n)) := by
  obtain ⟨workers, tasks, stop⟩ := pool
  refine ⟨?_, ?_, fun n => ?_⟩
  · cases tasks with
    | nil => simp [destroy, workerIteration_nil]
    | cons task rest => simp [destroy, workerIteration_cons]
  · intro task rest h
    simp only at h
    subst h
    simp [destroy, workerIteration_cons]
  · simpa [destroy] using runEvents_passes_after_stop n workers tasks [] stopSetMeanwhile

/-- Witness of C14, amended: three tasks queued when `stop` is set. -/
theorem shutdown_drains_queue_witness :
    (workerIteration (destroy (⟨2, [7, 8, 9], false⟩ : Pool Nat)) false = .exited ↔
        ([7, 8, 9] : List Nat) = []) ∧
      (∀ task rest, ([7, 8, 9] : List Nat) = task :: rest →
        workerIteration (destroy (⟨2, [7, 8, 9], false⟩ : Pool Nat)) false =
          .dequeued task ⟨2, rest, true⟩) ∧
      (∀ n, runEvents (List.replicate n (PoolEvent.workerPass false))
          (destroy (⟨2, [7, 8, 9], false⟩ : Pool Nat)) [] =
        (⟨2, ([7, 8, 9] : List Nat).drop n, true⟩, ([7, 8, 9] : List Nat).take n)) :=
  shutdown_drains_queue ⟨2, [7, 8, 9], false⟩ false

/-- C15 (FIFO queue).  `enqueue` appends the task at the back and leaves the queued tasks
as they were; a pass of a worker over a non-empty queue always takes the front task out
and leaves the others in order, and a pass that takes a task takes the front one; hence
after any sequence of submissions, worker passes and `stop` signals, the tasks dequeued so
far followed by the tasks still queued are the initially queued tasks followed by the
submitted ones, in submission order, and a further worker pass on a non-empty queue adds
exactly the front task to the dequeued ones. -/
theorem fifo_queue {τ : Type} (pool : Pool τ) :
    (∀ task, (enqueue pool task).tasks = pool.tasks ++ [task]) ∧
      (∀ stopSetMeanwhile task rest, pool.tasks = task :: rest →
        workerIteration pool stopSetMeanwhile =
          .dequeued task ⟨pool.workers, rest, pool.stop || stopSetMeanwhile⟩) ∧
      (∀ stopSetMeanwhile task pool2,
        workerIteration pool stopSetMeanwhile = .dequeued task pool2 →
        pool.tasks = task :: pool2.tasks) ∧
      (∀ events : List (PoolEvent τ),
        (runEvents events pool []).2 ++ (runEvents events pool []).1.tasks =
          pool.tasks ++ submittedTasks events) ∧
      (∀ (events : List (PoolEvent τ)) (stopSetMeanwhile : Bool) (task : τ)
          (rest : List τ),
        (runEvents events pool []).1.tasks = task :: rest →
        (runEvents (events ++ [.workerPass stopSetMeanwhile]) pool []).2 =
            (runEvents events pool []).2 ++ [task] ∧
          (runEvents (events ++ [.workerPass stopSetMeanwhile]) pool []).1.tasks =
            rest) := by
  refine ⟨fun _ => rfl, fun b task rest h => ?_,
    fun b task pool2 h => workerIteration_dequeued pool b task pool2 h,
    fun events => ?_, fun events b task rest h => ?_⟩
  · obtain ⟨workers, tasks, stop⟩ := pool
    simp only at h
    subst h
    exact workerIteration_cons workers task rest stop b
  · simpa using runEvents_invariant events pool []
  · rw [runEvents_append, runEvents_workerPass_cons _ _ b task rest h]
    exact ⟨rfl, rfl⟩

/-- Witness of C15: a running pool of two workers with the task `1` queued; after the
submission of `2`, a worker pass, the submission of `3` and another worker pass, the tasks
`1` and `2` have been dequeued in that order and `3` is still queued. -/
theorem fifo_queue_witness :
    ((∀ task, (enqueue (⟨2, [1], false⟩ : Pool Nat) task).tasks = [1] ++ [task]) ∧
      (∀ stopSetMeanwhile task rest, ([1] : List Nat) = task :: rest →
        workerIteration (⟨2, [1], false⟩ : Pool Nat) stopSetMeanwhile =
          .dequeued task ⟨2, rest, false || stopSetMeanwhile⟩) ∧
      (∀ stopSetMeanwhile task pool2,
        workerIteration (⟨2, [1], false⟩ : Pool Nat) stopSetMeanwhile =
          .dequeued task pool2 →
        ([1] : List Nat) = task :: pool2.tasks) ∧
      (∀ events : List (PoolEvent Nat),
        (runEvents events (⟨2, [1], false⟩ : Pool Nat) []).2 ++
            (runEvents events (⟨2, [1], false⟩ : Pool Nat) []).1.tasks =
          [1] ++ submittedTasks events) ∧
      (∀ (events : List (PoolEvent Nat)) (stopSetMeanwhile : Bool) (task : Nat)
          (rest : List Nat),
        (runEvents events (⟨2, [1], false⟩ : Pool Nat) []).1.tasks = task :: rest →
        (runEvents (events ++ [.workerPass stopSetMeanwhile])
            (⟨2, [1], false⟩ : Pool Nat) []).2 =
            (runEvents events (⟨2, [1], false⟩ : Pool Nat) []).2 ++ [task] ∧
          (runEvents (events ++ [.workerPass stopSetMeanwhile])
            (⟨2, [1], false⟩ : Pool Nat) []).1.tasks = rest)) ∧
      workerIteration (⟨2, [1], false⟩ : Pool Nat) false = .dequeued 1 ⟨2, [], false⟩ ∧
      runEvents [.submitted 2, .workerPass false, .submitted 3, .workerPass false]
        (⟨2, [1], false⟩ : Pool Nat) [] = (⟨2, [3], false⟩, [1, 2]) :=
  ⟨fifo_queue ⟨2, [1], false⟩, rfl, rfl⟩

/-- C16, as stated, fails: the constructor called with `0` or with `-3` returns a running
pool without workers, even when no thread could be created. -/
theorem construct_nonpositive_counterexample :
    (construct (fun _ => false) 0 : Except ConstructionFailure (Pool Nat)) =
        .ok ⟨0, [], false⟩ ∧
      (construct (fun _ => false) (-3) : Except ConstructionFailure (Pool Nat)) =
        .ok ⟨0, [], false⟩ ∧
      getThreadCount (⟨0, [], false⟩ : Pool Nat) = 0 :=
  ⟨rfl, rfl, rfl⟩

/-- C16, amended.  The constructor does not check its argument: with a zero or negative
count it yields a running pool with an empty queue and no worker, and with a positive
count, when every thread is created, a running pool of exactly that many workers. -/
theorem construct_worker_count {τ : Type} (spawns : Nat → Bool) (maxCount : Int) :
    (maxCount ≤ 0 →
        (construct spawns maxCount : Except ConstructionFailure (Pool τ)) =
          .ok ⟨0, [], false⟩) ∧
      (0 < maxCount → (∀ w, spawns w = true) →
        (construct spawns maxCount : Except ConstructionFailure (Pool τ)) =
          .ok ⟨maxCount.toNat, [], false⟩) := by
  constructor
  · intro h
    have h0 : maxCount.toNat = 0 := Int.toNat_eq_zero.2 h
    simp [construct, h0, constructLoop]
  · intro h hspawn
    have hloop := constructLoop_all_spawn spawns maxCount hspawn maxCount.toNat 0 0
      (by rw [Int.toNat_of_nonneg (le_of_lt h)]; simp)
    simp [construct, hloop]

/-- Witness of C16, amended: the counts `-3` and `4`. -/
theorem construct_worker_count_witness :
    (((-3 : Int) ≤ 0 →
        (construct (fun _ => true) (-3) : Except ConstructionFailure (Pool Nat)) =
          .ok ⟨0, [], false⟩) ∧
      ((0 : Int) < -3 → (∀ w : Nat, (fun _ => true) w = true) →
        (construct (fun _ => true) (-3) : Except ConstructionFailure (Pool Nat)) =
          .ok ⟨(-3 : Int).toNat, [], false⟩)) ∧
      (((4 : Int) ≤ 0 →
        (construct (fun _ => true) 4 : Except ConstructionFailure (Pool Nat)) =
          .ok ⟨0, [], false⟩) ∧
      ((0 : Int) < 4 → (∀ w : Nat, (fun _ => true) w = true) →
        (construct (fun _ => true) 4 : Except ConstructionFailure (Pool Nat)) =
          .ok ⟨(4 : Int).toNat, [], false⟩)) :=
  ⟨construct_worker_count (fun _ => true) (-3), construct_worker_count (fun _ => true) 4⟩

/-- C18 (worker termination).  On a pass in which the wait predicate holds (`stop` set or
queue non-empty), the worker exits if and only if `stop`, as read by the `if`, is set and
the queue is empty; otherwise the queue is non-empty and the worker takes exactly the
front task out to call it.  It never calls `front()` on an empty queue and does not stay
blocked. -/
theorem worker_termination {τ : Type} (pool : Pool τ) (stopSetMeanwhile : Bool)
    (hwait : pool.stop = true ∨ pool.tasks ≠ []) :
    (workerIteration pool stopSetMeanwhile = .exited ↔
        (pool.stop || stopSetMeanwhile) = true ∧ pool.tasks = []) ∧
      (¬ ((pool.stop || stopSetMeanwhile) = true ∧ pool.tasks = []) →
        ∃ task rest, pool.tasks = task :: rest ∧
          workerIteration pool stopSetMeanwhile =
            .dequeued task ⟨pool.workers, rest, pool.stop || stopSetMeanwhile⟩) ∧
      workerIteration pool stopSetMeanwhile ≠ .undefined ∧
      workerIteration pool stopSetMeanwhile ≠ .waiting := by
  obtain ⟨workers, tasks, stop⟩ := pool
  cases tasks with
  | nil =>
    have hstop : stop = true := by simpa using hwait
    subst hstop
    simp [workerIteration_nil]
  | cons task rest =>
    simp [workerIteration_cons]

/-- Witness of C18: a running pool with two queued tasks, `stop` being set between the
wait and the `if`; the worker still takes the front task. -/
theorem worker_termination_witness :
    (workerIteration (⟨2, [7, 8], false⟩ : Pool Nat) true = .exited ↔
        (false || true) = true ∧ ([7, 8] : List Nat) = []) ∧
      (¬ ((false || true) = true ∧ ([7, 8] : List Nat) = []) →
        ∃ task rest, ([7, 8] : List Nat) = task :: rest ∧
          workerIteration (⟨2, [7, 8], false⟩ : Pool Nat) true =
            .dequeued task ⟨2, rest, false || true⟩) ∧
      workerIteration (⟨2, [7, 8], false⟩ : Pool Nat) true ≠ .undefined ∧
      workerIteration (⟨2, [7, 8], false⟩ : Pool Nat) true ≠ .waiting :=
  worker_termination ⟨2, [7, 8], false⟩ true (Or.inr (by simp))

end ResultThreadPool
